import Mathlib

/-!
Verification of the query-to-operation resolution and multi-step execution
pipeline of the ai-expense-manager repository.

The Python code is shallowly embedded: Python strings are lists of
characters (`PyStr`), `datetime` dates are a structure with the library's
validity range (years 1..9999), fallible date arithmetic returns `Option`
(`none` models the library's `OverflowError`), and functions that may let
an exception escape return `Except`.  External collaborators (the language
model, the pandas/DuckDB tools) are parameters ("oracles") of the
functions that call them, as the spec treats them as external interfaces.
-/

deriving instance DecidableEq for Except

namespace ExpenseMgr

/-- Python strings, embedded as their list of characters. -/
abbrev PyStr := List Char

/-- `str.lower()`, character-wise (ASCII case mapping as in `Char.toLower`). -/
def pyLower (s : PyStr) : PyStr := s.map Char.toLower

/-- Whitespace test used by `str.strip()` with no arguments. -/
def isPySpace (c : Char) : Bool := c.isWhitespace

/-- `str.strip()`: remove leading and trailing whitespace. -/
def pyStrip (s : PyStr) : PyStr :=
  ((s.dropWhile isPySpace).reverse.dropWhile isPySpace).reverse

/-! ## Dates (`datetime.datetime`, as used by `tools/utils.py`)

`datetime` supports years 1..9999; subtracting a day from 0001-01-01
raises `OverflowError`, modelled by `Option.none` in `subOneDay`. -/

structure PyDate where
  year : Nat
  month : Nat
  day : Nat
deriving DecidableEq, Repr

/-- Gregorian leap-year rule used by `datetime`. -/
def isLeapYear (y : Nat) : Bool :=
  y % 4 = 0 && (y % 100 ≠ 0 || y % 400 = 0)

def daysInMonth (y m : Nat) : Nat :=
  if m = 2 then (if isLeapYear y then 29 else 28)
  else if m = 4 ∨ m = 6 ∨ m = 9 ∨ m = 11 then 30
  else 31

/-- Validity of a `datetime` date. -/
def PyDate.valid (d : PyDate) : Prop :=
  1 ≤ d.year ∧ d.year ≤ 9999 ∧ 1 ≤ d.month ∧ d.month ≤ 12 ∧
    1 ≤ d.day ∧ d.day ≤ daysInMonth d.year d.month

instance (d : PyDate) : Decidable d.valid := by
  unfold PyDate.valid; infer_instance

/-- `d.replace(day=1)`. -/
def replaceDay1 (d : PyDate) : PyDate := { d with day := 1 }

/-- `d - timedelta(days=1)`; `none` models `OverflowError` below
`datetime.min` (0001-01-01). -/
def subOneDay (d : PyDate) : Option PyDate :=
  if 2 ≤ d.day then some { d with day := d.day - 1 }
  else if 2 ≤ d.month then some ⟨d.year, d.month - 1, daysInMonth d.year (d.month - 1)⟩
  else if 2 ≤ d.year then some ⟨d.year - 1, 12, 31⟩
  else none

/-- The ASCII character of a decimal digit. -/
def digitChar (n : Nat) : Char := Char.ofNat (48 + n)

/-- Fuel-based decimal rendering; the fuel bounds the number of digits and
`natStr` supplies enough of it for every input. -/
def natStrAux : Nat → Nat → PyStr
  | 0, _ => []
  | fuel + 1, n =>
    if n < 10 then [digitChar n]
    else natStrAux fuel (n / 10) ++ [digitChar (n % 10)]

/-- Decimal digits of a natural number (the rendering used by `%Y`,
f-strings and `str(int)`; glibc `%Y` does not zero-pad). -/
def natStr (n : Nat) : PyStr := natStrAux (n + 1) n

/-- `str(m).zfill(2)`, also the behaviour of `%m`. -/
def zfill2 (n : Nat) : PyStr := if n < 10 then '0' :: natStr n else natStr n

/-- `dt.strftime("%Y-%m")`. -/
def ymStr (d : PyDate) : PyStr := natStr d.year ++ '-' :: zfill2 d.month

/-- A value returned by `resolve_time_period`: either a single string or a
list of strings. -/
inductive TimeVal where
  | str : PyStr → TimeVal
  | list : List PyStr → TimeVal
deriving DecidableEq, Repr

/-- The message of `OverflowError: date value out of range`. -/
def overflowMsg : String := "OverflowError: date value out of range"

/-- The loop of Case 3 of `resolve_time_period` ("last N months"):
`current -= timedelta(days=1); months.append(ym(current));
current = current.replace(day=1)`, repeated `n` times, producing the
months in the order they are appended (most recent first). -/
def lastMonthsLoop : Nat → PyDate → Except String (List PyStr)
  | 0, _ => .ok []
  | n + 1, current =>
    match subOneDay current with
    | none => .error overflowMsg
    | some c => (lastMonthsLoop n (replaceDay1 c)).map (fun rest => ymStr c :: rest)

/-- The loop of Case 4 of `resolve_time_period` ("last quarter"); the
source duplicates the Case 3 loop verbatim with `range(3)`, so this is a
second definition with an identical body, kept separate to mirror that
duplication. -/
def lastQuarterLoop : Nat → PyDate → Except String (List PyStr)
  | 0, _ => .ok []
  | n + 1, current =>
    match subOneDay current with
    | none => .error overflowMsg
    | some c => (lastQuarterLoop n (replaceDay1 c)).map (fun rest => ymStr c :: rest)

/-- The regex character class `\d` (ASCII digits `'0'..'9'`). -/
def pyIsDigit (c : Char) : Bool := 48 ≤ c.toNat && c.toNat ≤ 57

/-- Numeric value of a list of ASCII digits (`int(...)` on a digit string). -/
def parseDigits (s : PyStr) : Nat :=
  s.foldl (fun acc c => 10 * acc + (c.toNat - 48)) 0

/-- `re.match(r"last (\d+) months", value)`: anchored at the start only, so
the pattern must be a prefix of `value`.  Returns the captured number. -/
def matchLastN (s : PyStr) : Option Nat :=
  if "last ".data.isPrefixOf s then
    let rest := s.drop 5
    let ds := rest.takeWhile pyIsDigit
    if ds ≠ [] ∧ " months".data.isPrefixOf (rest.drop ds.length) then
      some (parseDigits ds)
    else none
  else none

/-- `re.match(r"\d{4}-\d{2}", value)`: anchored at the start only, so any
string beginning with four digits, a dash and two digits matches. -/
def matchesYmStart : PyStr → Bool
  | a :: b :: c :: d :: e :: f :: g :: _ =>
    pyIsDigit a && pyIsDigit b && pyIsDigit c && pyIsDigit d && e = '-' &&
      pyIsDigit f && pyIsDigit g
  | _ => false

/-- The case analysis of `resolve_time_period` after the
`value = value.lower().strip()` reassignment; `v` is the reassigned value. -/
def resolveNorm (today : PyDate) (v : PyStr) : Except String TimeVal :=
  if v = "this month".data then .ok (.str (ymStr today))
  else if v = "last month".data then
    match subOneDay (replaceDay1 today) with
    | none => .error overflowMsg
    | some lm => .ok (.str (ymStr lm))
  else
    match matchLastN v with
    | some n => (lastMonthsLoop n (replaceDay1 today)).map (fun ms => .list ms.reverse)
    | none =>
      if v = "last quarter".data then
        (lastQuarterLoop 3 (replaceDay1 today)).map (fun ms => .list ms.reverse)
      else if v = "this year".data then
        .ok (.list ((List.range today.month).map fun i => natStr today.year ++ '-' :: zfill2 (i + 1)))
      else if matchesYmStart v then .ok (.str v)
      else .ok (.str v)

/-- `resolve_time_period(value)` from `tools/utils.py`, with
`datetime.today()` passed in as `today`.  An `Except.error` models an
exception escaping the function (the date arithmetic is not guarded). -/
def resolve_time_period (today : PyDate) (value : PyStr) : Except String TimeVal :=
  resolveNorm today (pyStrip (pyLower value))

example : resolve_time_period ⟨2025, 7, 15⟩ "last 3 months".data =
    .ok (.list ["2025-04".data, "2025-05".data, "2025-06".data]) := by decide

example : resolve_time_period ⟨2025, 7, 15⟩ "this month".data =
    .ok (.str "2025-07".data) := by decide

example : resolve_time_period ⟨2025, 1, 2⟩ "last month".data =
    .ok (.str "2024-12".data) := by decide

example : resolve_time_period ⟨2025, 7, 15⟩ " HELLO ".data =
    .ok (.str "hello".data) := by decide

example : resolve_time_period ⟨1, 2, 15⟩ "last 2 months".data = .error overflowMsg := by decide

example : resolve_time_period ⟨2025, 3, 10⟩ "this year".data =
    .ok (.list ["2025-01".data, "2025-02".data, "2025-03".data]) := by decide

/-! ## Facts about decimal rendering -/

theorem digitChar_pyIsDigit {n : Nat} (h : n ≤ 9) : pyIsDigit (digitChar n) = true := by
  interval_cases n <;> decide

theorem digitChar_toNat {n : Nat} (h : n ≤ 9) : (digitChar n).toNat = 48 + n := by
  interval_cases n <;> decide

theorem pyIsDigit_ne_dash {c : Char} (h : pyIsDigit c = true) : c ≠ '-' := by
  intro he; rw [he] at h; exact absurd h (by decide)

theorem pyIsDigit_toLower {c : Char} (h : pyIsDigit c = true) : Char.toLower c = c := by
  simp only [pyIsDigit, Bool.and_eq_true, decide_eq_true_eq] at h
  simp only [Char.toLower]
  rw [if_neg]
  simp only [Bool.and_eq_true, decide_eq_true_eq, not_and]
  omega

theorem pyIsDigit_not_space {c : Char} (h : pyIsDigit c = true) : isPySpace c = false := by
  simp only [pyIsDigit, Bool.and_eq_true, decide_eq_true_eq] at h
  simp only [isPySpace, Char.isWhitespace]
  have h9 : c ≠ ' ' := by intro he; rw [he] at h; exact absurd h (by decide)
  have hA : c ≠ '\t' := by intro he; rw [he] at h; exact absurd h (by decide)
  have hB : c ≠ '\n' := by intro he; rw [he] at h; exact absurd h (by decide)
  have hC : c ≠ '\x0d' := by intro he; rw [he] at h; exact absurd h (by decide)
  simp [h9, hA, hB, hC]

theorem natStrAux_digits : ∀ fuel n, n < fuel → ∀ c ∈ natStrAux fuel n, pyIsDigit c = true := by
  intro fuel
  induction fuel with
  | zero => intro n h; omega
  | succ fuel ih =>
    intro n h c hc
    unfold natStrAux at hc
    by_cases h10 : n < 10
    · rw [if_pos h10] at hc
      simp only [List.mem_singleton] at hc
      subst hc; exact digitChar_pyIsDigit (by omega)
    · rw [if_neg h10] at hc
      rcases List.mem_append.mp hc with h1 | h1
      · exact ih (n / 10) (by omega) c h1
      · simp only [List.mem_singleton] at h1
        subst h1; exact digitChar_pyIsDigit (by omega)

theorem parseDigits_append_digit (s : PyStr) (c : Char) :
    parseDigits (s ++ [c]) = 10 * parseDigits s + (c.toNat - 48) := by
  simp [parseDigits, List.foldl_append]

theorem natStrAux_parse : ∀ fuel n, n < fuel → parseDigits (natStrAux fuel n) = n := by
  intro fuel
  induction fuel with
  | zero => intro n h; omega
  | succ fuel ih =>
    intro n h
    unfold natStrAux
    by_cases h10 : n < 10
    · rw [if_pos h10]
      simp [parseDigits, digitChar_toNat (show n ≤ 9 by omega)]
    · rw [if_neg h10]
      rw [parseDigits_append_digit, ih (n / 10) (by omega),
        digitChar_toNat (show n % 10 ≤ 9 by omega)]
      omega

theorem natStrAux_ne_nil : ∀ fuel n, n < fuel → natStrAux fuel n ≠ [] := by
  intro fuel n h
  cases fuel with
  | zero => omega
  | succ fuel =>
    unfold natStrAux
    by_cases h10 : n < 10
    · rw [if_pos h10]; simp
    · rw [if_neg h10]; simp

theorem natStr_digits (n : Nat) : ∀ c ∈ natStr n, pyIsDigit c = true :=
  natStrAux_digits (n + 1) n (by omega)

theorem natStr_parse (n : Nat) : parseDigits (natStr n) = n :=
  natStrAux_parse (n + 1) n (by omega)

theorem natStr_ne_nil (n : Nat) : natStr n ≠ [] :=
  natStrAux_ne_nil (n + 1) n (by omega)

theorem zfill2_digits (n : Nat) : ∀ c ∈ zfill2 n, pyIsDigit c = true := by
  intro c hc
  unfold zfill2 at hc
  by_cases h : n < 10
  · rw [if_pos h] at hc
    rcases List.mem_cons.mp hc with hc | hc
    · subst hc; decide
    · exact natStr_digits n c hc
  · rw [if_neg h] at hc
    exact natStr_digits n c hc

theorem zfill2_parse (n : Nat) : parseDigits (zfill2 n) = n := by
  unfold zfill2
  by_cases h : n < 10
  · rw [if_pos h]
    have h0 : parseDigits ('0' :: natStr n) = parseDigits (natStr n) := by
      simp only [parseDigits, List.foldl_cons]
      have he : (10 * 0 + ('0'.toNat - 48)) = 0 := by decide
      rw [he]
    rw [h0, natStr_parse]
  · rw [if_neg h]; exact natStr_parse n

/-! ## The month-index view of dates and year-month tokens -/

/-- Number of the month of `d` on the time line (January of year 0 is 0). -/
def monthIdx (d : PyDate) : Nat := 12 * d.year + (d.month - 1)

/-- The `"%Y-%m"` token of the month with index `i`. -/
def ymOfIdx (i : Nat) : PyStr := natStr (i / 12) ++ '-' :: zfill2 (i % 12 + 1)

/-- Decode a `"%Y-%m"` token back to its month index (used only to state
chronological ordering of tokens). -/
def ymNum (s : PyStr) : Nat :=
  12 * parseDigits (s.takeWhile (fun c => c ≠ '-')) +
    (parseDigits (s.drop ((s.takeWhile (fun c => c ≠ '-')).length + 1)) - 1)

theorem takeWhile_append_stop {p : Char → Bool} :
    ∀ (l : PyStr) (a : Char) (r : PyStr), (∀ c ∈ l, p c = true) → p a = false →
      (l ++ a :: r).takeWhile p = l := by
  intro l
  induction l with
  | nil => intro a r _ ha; simp [List.takeWhile_cons, ha]
  | cons x xs ih =>
    intro a r hl ha
    have hx : p x = true := hl x (by simp)
    simp only [List.cons_append, List.takeWhile_cons, hx, if_true]
    rw [ih a r (fun c hc => hl c (by simp [hc])) ha]

theorem drop_len_succ_append (l : PyStr) (a : Char) (r : PyStr) :
    (l ++ a :: r).drop (l.length + 1) = r := by
  induction l with
  | nil => simp
  | cons x xs ih => simp [ih]

theorem ymNum_ymOfIdx (i : Nat) : ymNum (ymOfIdx i) = i := by
  unfold ymNum ymOfIdx
  have hy : ((natStr (i / 12) ++ '-' :: zfill2 (i % 12 + 1)).takeWhile (fun c => c ≠ '-')) =
      natStr (i / 12) := by
    apply takeWhile_append_stop
    · intro c hc
      exact decide_eq_true (pyIsDigit_ne_dash (natStr_digits _ c hc))
    · simp
  rw [hy, drop_len_succ_append, natStr_parse, zfill2_parse]
  omega

theorem ymStr_eq_ymOfIdx (d : PyDate) (h1 : 1 ≤ d.month) (h2 : d.month ≤ 12) :
    ymStr d = ymOfIdx (monthIdx d) := by
  unfold ymStr ymOfIdx monthIdx
  have hdiv : (12 * d.year + (d.month - 1)) / 12 = d.year := by omega
  have hmod : (12 * d.year + (d.month - 1)) % 12 + 1 = d.month := by omega
  rw [hdiv, hmod]

theorem ymNum_ymStr (d : PyDate) (h1 : 1 ≤ d.month) (h2 : d.month ≤ 12) :
    ymNum (ymStr d) = monthIdx d := by
  rw [ymStr_eq_ymOfIdx d h1 h2, ymNum_ymOfIdx]

/-! ## Behaviour of the "last N months" loop -/

theorem subOneDay_firstOfMonth (d : PyDate) (hday : d.day = 1) (hm1 : 1 ≤ d.month)
    (hm2 : d.month ≤ 12) (hy : 1 ≤ d.year) (hidx : 13 ≤ monthIdx d) :
    ∃ c, subOneDay d = some c ∧ 1 ≤ c.month ∧ c.month ≤ 12 ∧ 1 ≤ c.year ∧
      monthIdx c = monthIdx d - 1 := by
  unfold subOneDay
  rw [if_neg (by omega)]
  by_cases hm : 2 ≤ d.month
  · rw [if_pos hm]
    refine ⟨_, rfl, ?_, ?_, ?_, ?_⟩ <;> simp [monthIdx] <;> unfold monthIdx at * <;> omega
  · rw [if_neg hm, if_pos (by unfold monthIdx at hidx; omega)]
    refine ⟨_, rfl, ?_, ?_, ?_, ?_⟩ <;> simp [monthIdx] <;> unfold monthIdx at * <;> omega

theorem monthIdx_replaceDay1 (d : PyDate) : monthIdx (replaceDay1 d) = monthIdx d := rfl

theorem lastMonthsLoop_ok : ∀ (n : Nat) (d : PyDate), d.day = 1 → 1 ≤ d.month →
    d.month ≤ 12 → 1 ≤ d.year → n + 12 ≤ monthIdx d →
    lastMonthsLoop n d = .ok ((List.range n).map fun k => ymOfIdx (monthIdx d - 1 - k)) := by
  intro n
  induction n with
  | zero => intro d _ _ _ _ _; simp [lastMonthsLoop]
  | succ n ih =>
    intro d hday hm1 hm2 hy hidx
    obtain ⟨c, hsub, hc1, hc2, hc3, hcidx⟩ :=
      subOneDay_firstOfMonth d hday hm1 hm2 hy (by omega)
    have hstep : lastMonthsLoop (n + 1) d =
        Except.map (fun rest => ymStr c :: rest) (lastMonthsLoop n (replaceDay1 c)) := by
      conv_lhs => rw [lastMonthsLoop, hsub]
    rw [hstep, ih (replaceDay1 c) rfl hc1 hc2 hc3 (by rw [monthIdx_replaceDay1]; omega)]
    simp only [Except.map, Except.ok.injEq]
    rw [List.range_succ_eq_map, List.map_cons, List.map_map]
    simp only [List.cons.injEq]
    refine ⟨?_, ?_⟩
    · rw [ymStr_eq_ymOfIdx c hc1 hc2, hcidx]
      congr 1
    · apply List.map_congr_left
      intro k _
      simp only [Function.comp_apply, monthIdx_replaceDay1, hcidx]
      congr 1
      omega

theorem lastQuarterLoop_eq_lastMonthsLoop :
    ∀ (n : Nat) (d : PyDate), lastQuarterLoop n d = lastMonthsLoop n d := by
  intro n
  induction n with
  | zero => intro d; rfl
  | succ n ih =>
    intro d
    unfold lastQuarterLoop lastMonthsLoop
    cases subOneDay d with
    | none => rfl
    | some c => simp only [ih (replaceDay1 c)]

theorem reverse_desc_map (idx n : Nat) (h : n ≤ idx) :
    ((List.range n).map fun k => ymOfIdx (idx - 1 - k)).reverse =
      (List.range n).map fun k => ymOfIdx (idx - n + k) := by
  rw [← List.map_reverse, List.range_eq_range', List.reverse_range', List.map_map,
    ← List.range_eq_range']
  apply List.map_congr_left
  intro k hk
  have hklt : k < n := List.mem_range.mp hk
  simp only [Function.comp_apply]
  congr 1
  omega

/-! ## The "last N months" input string -/

/-- The text `"last <ds> months"` for a digit string `ds`. -/
def lastNInput (ds : PyStr) : PyStr := "last ".data ++ ds ++ " months".data

theorem pyStrip_eq_self (s : PyStr) (h1 : ∀ c, s.head? = some c → isPySpace c = false)
    (h2 : ∀ c, s.getLast? = some c → isPySpace c = false) : pyStrip s = s := by
  unfold pyStrip
  have hd : s.dropWhile isPySpace = s := by
    cases s with
    | nil => rfl
    | cons a l =>
      rw [List.dropWhile_cons, if_neg]
      rw [h1 a rfl]
      simp
  rw [hd]
  have hrev : s.reverse.dropWhile isPySpace = s.reverse := by
    cases hr : s.reverse with
    | nil => rfl
    | cons a l =>
      have hlast : s.getLast? = some a := by
        rw [← List.head?_reverse, hr, List.head?_cons]
      rw [List.dropWhile_cons, if_neg (by rw [h2 a hlast]; simp)]
  rw [hrev, List.reverse_reverse]

theorem pyLower_lastNInput (ds : PyStr) (hd : ∀ c ∈ ds, pyIsDigit c = true) :
    pyLower (lastNInput ds) = lastNInput ds := by
  unfold pyLower lastNInput
  rw [List.map_append, List.map_append]
  have h1 : "last ".data.map Char.toLower = "last ".data := by decide
  have h2 : " months".data.map Char.toLower = " months".data := by decide
  have h3 : ds.map Char.toLower = ds := by
    have := List.map_congr_left (l := ds) (f := Char.toLower) (g := id)
      (fun c hc => pyIsDigit_toLower (hd c hc))
    rw [this, List.map_id]
  rw [h1, h2, h3]

theorem pyStrip_lastNInput (ds : PyStr) : pyStrip (lastNInput ds) = lastNInput ds := by
  apply pyStrip_eq_self
  · intro c hc
    have : some 'l' = some c := hc
    cases this
    decide
  · intro c hc
    have hlast : (lastNInput ds).getLast? = some 's' := by
      unfold lastNInput
      rw [List.append_assoc, List.getLast?_append, List.getLast?_append]
      rfl
    rw [hlast] at hc
    cases hc
    decide

theorem matchLastN_lastNInput (ds : PyStr) (hne : ds ≠ [])
    (hd : ∀ c ∈ ds, pyIsDigit c = true) :
    matchLastN (lastNInput ds) = some (parseDigits ds) := by
  unfold matchLastN lastNInput
  rw [List.append_assoc]
  have hpre : "last ".data.isPrefixOf ("last ".data ++ (ds ++ " months".data)) = true := by
    rw [List.isPrefixOf_iff_prefix]
    exact List.prefix_append _ _
  rw [if_pos hpre]
  have hdrop : ("last ".data ++ (ds ++ " months".data)).drop 5 = ds ++ " months".data := by
    rw [show (5 : Nat) = ("last ".data).length from rfl, List.drop_left]
  simp only [hdrop]
  have htake : (ds ++ " months".data).takeWhile pyIsDigit = ds := by
    rw [show (" months".data : PyStr) = ' ' :: "months".data from rfl]
    exact takeWhile_append_stop ds ' ' "months".data hd (by decide)
  simp only [htake]
  have hcond : ds ≠ [] ∧
      " months".data.isPrefixOf ((ds ++ " months".data).drop ds.length) = true := by
    refine ⟨hne, ?_⟩
    rw [List.drop_left, List.isPrefixOf_iff_prefix]
  rw [if_pos hcond]

theorem lastNInput_ne_thisMonth (ds : PyStr) : lastNInput ds ≠ "this month".data := by
  intro h
  have h2 : (some 'l' : Option Char) = some 't' := congrArg List.head? h
  exact (by decide : (some 'l' : Option Char) ≠ some 't') h2

theorem lastNInput_ne_lastMonth (ds : PyStr) : lastNInput ds ≠ "last month".data := by
  intro h
  have h2 := congrArg List.length h
  simp [lastNInput] at h2

/-- C3 (amended): for every positive N written as a digit string `ds` and
every valid current date with at least N calendar months available before
the current month (without that proviso the date arithmetic raises
`OverflowError`, see the counterexample), resolving `"last N months"`
returns exactly N year-month tokens, strictly chronologically ascending,
excluding the current month, ending at the month immediately preceding the
current one. -/
theorem c3_last_n_months (today : PyDate) (n : Nat) (ds : PyStr)
    (hval : today.valid) (hn : 0 < n) (hrange : n + 12 ≤ monthIdx today)
    (hne : ds ≠ []) (hd : ∀ c ∈ ds, pyIsDigit c = true) (hparse : parseDigits ds = n) :
    ∃ l : List PyStr,
      resolve_time_period today (lastNInput ds) = .ok (.list l) ∧
      l = (List.range n).map (fun k => ymOfIdx (monthIdx today - n + k)) ∧
      l.length = n ∧
      List.Chain' (fun a b => ymNum a < ymNum b) l ∧
      l.getLast? = some (ymOfIdx (monthIdx today - 1)) ∧
      ymStr today ∉ l := by
  obtain ⟨hv1, hv2, hv3, hv4, hv5, hv6⟩ := hval
  have hfix : pyStrip (pyLower (lastNInput ds)) = lastNInput ds := by
    rw [pyLower_lastNInput ds hd, pyStrip_lastNInput]
  have hres : resolve_time_period today (lastNInput ds) =
      .ok (.list ((List.range n).map fun k => ymOfIdx (monthIdx today - n + k))) := by
    show resolveNorm today (pyStrip (pyLower (lastNInput ds))) = _
    rw [hfix]
    unfold resolveNorm
    rw [if_neg (lastNInput_ne_thisMonth ds), if_neg (lastNInput_ne_lastMonth ds)]
    simp only [matchLastN_lastNInput ds hne hd, hparse]
    rw [lastMonthsLoop_ok n (replaceDay1 today) rfl hv3 hv4 hv1
      (by rw [monthIdx_replaceDay1]; omega)]
    simp only [Except.map, monthIdx_replaceDay1]
    rw [reverse_desc_map (monthIdx today) n (by omega)]
  refine ⟨_, hres, rfl, ?_, ?_, ?_, ?_⟩
  · simp
  · apply List.Pairwise.chain'
    rw [List.pairwise_map]
    refine List.Pairwise.imp ?_ (List.pairwise_lt_range n)
    intro a b hab
    rw [ymNum_ymOfIdx, ymNum_ymOfIdx]
    omega
  · obtain ⟨m, rfl⟩ : ∃ m, n = m + 1 := ⟨n - 1, by omega⟩
    rw [List.range_succ, List.map_append, List.map_singleton, List.getLast?_concat]
    congr 2
    omega
  · intro hmem
    rw [List.mem_map] at hmem
    obtain ⟨k, hk, he⟩ := hmem
    have h1 := congrArg ymNum he
    rw [ymNum_ymOfIdx, ymNum_ymStr today hv3 hv4] at h1
    have hklt := List.mem_range.mp hk
    omega

/-- C3 witness: the claim's own scenario, a fixed "today" of 2025-07-15 and
"last 3 months", via `c3_last_n_months`. -/
theorem c3_witness :
    PyDate.valid ⟨2025, 7, 15⟩ ∧ 0 < 3 ∧ 3 + 12 ≤ monthIdx ⟨2025, 7, 15⟩ ∧
    resolve_time_period ⟨2025, 7, 15⟩ "last 3 months".data =
      .ok (.list ["2025-04".data, "2025-05".data, "2025-06".data]) := by
  refine ⟨by decide, by decide, by decide, ?_⟩
  obtain ⟨l, h1, h2, _⟩ := c3_last_n_months ⟨2025, 7, 15⟩ 3 "3".data (by decide) (by decide)
    (by decide) (by decide) (by decide) (by decide)
  have he : lastNInput "3".data = "last 3 months".data := by decide
  rw [he] at h1
  rw [h1, h2]
  decide

/-- C3 counterexample to the claim as stated: 0001-02-15 is a valid
`datetime` date, yet resolving "last 2 months" from it raises
`OverflowError` rather than returning a 2-element list (the same happens
from any current date once N exceeds the months available since year 1). -/
theorem c3_counterexample :
    PyDate.valid ⟨1, 2, 15⟩ ∧
    resolve_time_period ⟨1, 2, 15⟩ "last 2 months".data = .error overflowMsg := by decide

/-- C9: for every current date, `"last quarter"` resolves to exactly the
same value as `"last 3 months"`: the duplicated quarter loop and the
parameterized loop with N = 3 are equivalent, errors included. -/
theorem c9_last_quarter_eq_last_3_months (today : PyDate) :
    resolve_time_period today "last quarter".data =
      resolve_time_period today "last 3 months".data := by
  have hl : resolve_time_period today "last quarter".data =
      (lastQuarterLoop 3 (replaceDay1 today)).map (fun ms => TimeVal.list ms.reverse) := rfl
  have hr : resolve_time_period today "last 3 months".data =
      (lastMonthsLoop 3 (replaceDay1 today)).map (fun ms => TimeVal.list ms.reverse) := rfl
  rw [hl, hr, lastQuarterLoop_eq_lastMonthsLoop]

/-- A string recognized by none of the resolver's cases (after the
lower/strip reassignment). -/
def unrecognizedTime (v : PyStr) : Prop :=
  v ≠ "this month".data ∧ v ≠ "last month".data ∧ matchLastN v = none ∧
  v ≠ "last quarter".data ∧ v ≠ "this year".data ∧ matchesYmStart v = false

instance (v : PyStr) : Decidable (unrecognizedTime v) := by
  unfold unrecognizedTime; infer_instance

/-- C4 (amended): an input recognized by none of the resolver's cases is
returned as its lower-cased, whitespace-stripped form (not the original
string), and an exception can escape only from the three month-arithmetic
branches ("last month", "last N months", "last quarter"), where the
`datetime` subtraction may underflow year 1. -/
theorem c4_unrecognized_and_errors :
    (∀ (today : PyDate) (value : PyStr), unrecognizedTime (pyStrip (pyLower value)) →
      resolve_time_period today value = .ok (.str (pyStrip (pyLower value)))) ∧
    (∀ (today : PyDate) (value : PyStr) (e : String),
      resolve_time_period today value = .error e →
      pyStrip (pyLower value) = "last month".data ∨
      matchLastN (pyStrip (pyLower value)) ≠ none ∨
      pyStrip (pyLower value) = "last quarter".data) := by
  constructor
  · intro today value h
    obtain ⟨h1, h2, h3, h4, h5, h6⟩ := h
    show resolveNorm today (pyStrip (pyLower value)) = _
    unfold resolveNorm
    rw [if_neg h1, if_neg h2]
    simp only [h3, if_neg h4, if_neg h5, h6]
    simp
  · intro today value e h
    replace h : resolveNorm today (pyStrip (pyLower value)) = .error e := h
    set v := pyStrip (pyLower value) with hv
    unfold resolveNorm at h
    by_cases c1 : v = "this month".data
    · rw [if_pos c1] at h; exact absurd h (by simp)
    rw [if_neg c1] at h
    by_cases c2 : v = "last month".data
    · exact Or.inl c2
    rw [if_neg c2] at h
    cases hm : matchLastN v with
    | some k => exact Or.inr (Or.inl (by simp [hm]))
    | none =>
      simp only [hm] at h
      by_cases c3 : v = "last quarter".data
      · exact Or.inr (Or.inr c3)
      rw [if_neg c3] at h
      by_cases c4 : v = "this year".data
      · rw [if_pos c4] at h; exact absurd h (by simp)
      rw [if_neg c4] at h
      by_cases c5 : matchesYmStart v = true
      · rw [if_pos c5] at h; exact absurd h (by simp)
      · rw [if_neg c5] at h; exact absurd h (by simp)

/-- C4 witness: a concrete unrecognized input, via
`c4_unrecognized_and_errors`. -/
theorem c4_witness :
    unrecognizedTime (pyStrip (pyLower "gibberish".data)) ∧
    resolve_time_period ⟨2025, 7, 15⟩ "gibberish".data =
      .ok (.str (pyStrip (pyLower "gibberish".data))) :=
  ⟨by decide, c4_unrecognized_and_errors.1 ⟨2025, 7, 15⟩ "gibberish".data (by decide)⟩

/-- C4 counterexample to the claim as stated: the fallback returns the
lower-cased, stripped input rather than the original string, and from the
valid date 0001-03-20 the recognized input "last 3 months" lets
`OverflowError` escape. -/
theorem c4_counterexample :
    resolve_time_period ⟨2025, 7, 15⟩ " HELLO".data = .ok (.str "hello".data) ∧
    "hello".data ≠ " HELLO".data ∧
    unrecognizedTime (pyStrip (pyLower " HELLO".data)) ∧
    PyDate.valid ⟨1, 3, 20⟩ ∧
    resolve_time_period ⟨1, 3, 20⟩ "last 3 months".data = .error overflowMsg := by decide

/-! ## `difflib.SequenceMatcher` (as used by `get_close_matches` and
`SequenceMatcher(None, query, past_query).ratio()`)

Both call sites construct the matcher with `isjunk=None`, so the junk set
`bjunk` is empty; the `autojunk` purge of popular elements of `b` (only
active when `len(b) >= 200`) is embedded in `b2j`.  Matched positions and
block triples `(i, j, size)` are natural numbers.  Ratios are exact
rationals; `0.6` and `0.4` are `3/5` and `2/5` (the binary floating point
of the source differs from the exact value by less than `2^-53`, which no
ratio of the form `2*matches/total` can exploit at realistic lengths). -/

/-- All indices at which character `c` occurs in `b`, ascending (the lists
held by the `b2j` dictionary). -/
def occIndices (b : PyStr) (c : Char) : List Nat :=
  (List.range b.length).filter (fun i => b.getD i (Char.ofNat 0) = c)

/-- The `autojunk` rule: for `len(b) >= 200`, elements occurring more than
`len(b) // 100 + 1` times are purged from `b2j`. -/
def isPopular (b : PyStr) (c : Char) : Bool :=
  decide (200 ≤ b.length) && decide (b.length / 100 + 1 < (occIndices b c).length)

/-- `b2j.get(ch, [])` after construction and the autojunk purge. -/
def b2j (b : PyStr) (c : Char) : List Nat :=
  if isPopular b c then [] else occIndices b c

/-- The junk test `bjunk.__contains__`; `bjunk` is empty because both call
sites pass `isjunk=None`. -/
def isbjunk (_ : Char) : Bool := false

/-- Inner loop of `find_longest_match` over the index list `b2j[a[i]]`:
`continue` below `blo`, `break` at `bhi` (the lists are ascending), the
`j2len`/`newj2len` dynamic programming and the running best.  `j2len` maps
`j` to the length of the longest match ending at `a[i-1]`, `b[j]`; the
read of key `j-1` for `j = 0` is Python's absent key `-1`, value 0.  The
assignments `besti = i-k+1`, `bestj = j-k+1` are written `i+1-k`, `j+1-k`,
equal over the integers since `k` counts a match ending at `i`, `j`
(proved in `flmInner_spec`). -/
def flmInner (blo bhi i : Nat) (j2len : Nat → Nat) :
    List Nat → (Nat → Nat) → (Nat × Nat × Nat) → ((Nat → Nat) × (Nat × Nat × Nat))
  | [], newj2len, best => (newj2len, best)
  | j :: js, newj2len, best =>
    if j < blo then flmInner blo bhi i j2len js newj2len best
    else if bhi ≤ j then (newj2len, best)
    else
      let k := (if j = 0 then 0 else j2len (j - 1)) + 1
      let newj2len' : Nat → Nat := fun x => if x = j then k else newj2len x
      let best' := if best.2.2 < k then (i + 1 - k, j + 1 - k, k) else best
      flmInner blo bhi i j2len js newj2len' best'

/-- Outer loop of `find_longest_match` over the rows `i in range(alo, ahi)`;
each row starts a fresh `newj2len` and passes the previous row's map. -/
def flmRows (a b : PyStr) (blo bhi : Nat) :
    List Nat → (Nat → Nat) → (Nat × Nat × Nat) → (Nat × Nat × Nat)
  | [], _, best => best
  | i :: is, j2len, best =>
    let p := flmInner blo bhi i j2len (b2j b (a.getD i (Char.ofNat 0))) (fun _ => 0) best
    flmRows a b blo bhi is p.1 p.2

/-- One of the two `while` loops extending the best match downward.  The
guard needs `alo < besti` and each pass decrements `besti`, so `besti`
passes of fuel are exact: if the fuel ever reaches 0, `besti` has reached
0 ≤ `alo` and the guard is false anyway. -/
def extendFront (a b : PyStr) (alo blo : Nat) (p : Char → Bool) :
    Nat → (Nat × Nat × Nat) → (Nat × Nat × Nat)
  | 0, best => best
  | fuel + 1, (besti, bestj, bestsize) =>
    if alo < besti ∧ blo < bestj ∧ p (b.getD (bestj - 1) (Char.ofNat 0)) = true ∧
        a.getD (besti - 1) (Char.ofNat 0) = b.getD (bestj - 1) (Char.ofNat 0) then
      extendFront a b alo blo p fuel (besti - 1, bestj - 1, bestsize + 1)
    else (besti, bestj, bestsize)

/-- One of the two `while` loops extending the best match upward.  The
guard needs `besti + bestsize < ahi` and each pass increments `bestsize`,
so `ahi` passes of fuel are exact. -/
def extendBack (a b : PyStr) (ahi bhi : Nat) (p : Char → Bool) :
    Nat → (Nat × Nat × Nat) → (Nat × Nat × Nat)
  | 0, best => best
  | fuel + 1, (besti, bestj, bestsize) =>
    if besti + bestsize < ahi ∧ bestj + bestsize < bhi ∧
        p (b.getD (bestj + bestsize) (Char.ofNat 0)) = true ∧
        a.getD (besti + bestsize) (Char.ofNat 0) = b.getD (bestj + bestsize) (Char.ofNat 0) then
      extendBack a b ahi bhi p fuel (besti, bestj, bestsize + 1)
    else (besti, bestj, bestsize)

/-- `find_longest_match(alo, ahi, blo, bhi)`: the row loop, then the four
extension loops (junk-adjacent extensions use `isbjunk`, which is
constantly false here, and non-junk extensions its negation). -/
def find_longest_match (a b : PyStr) (alo ahi blo bhi : Nat) : Nat × Nat × Nat :=
  let best1 := flmRows a b blo bhi (List.range' alo (ahi - alo)) (fun _ => 0) (alo, blo, 0)
  let best2 := extendFront a b alo blo (fun c => !(isbjunk c)) best1.1 best1
  let best3 := extendBack a b ahi bhi (fun c => !(isbjunk c)) ahi best2
  let best4 := extendFront a b alo blo (fun c => isbjunk c) best3.1 best3
  extendBack a b ahi bhi (fun c => isbjunk c) ahi best4

/-- The recursion of `get_matching_blocks`: find the longest match of a
region, then recurse on the region before it and the region after it.
The source drives the same recursion tree with an explicit LIFO work queue
and sorts the collected blocks afterward; the in-order traversal here
yields them already sorted.  The fuel strictly decreases with the region
size `(ahi - alo) + (bhi - blo)`, so the top-level fuel in
`get_matching_blocks` never runs out. -/
def mbRec (a b : PyStr) : Nat → Nat → Nat → Nat → Nat → List (Nat × Nat × Nat)
  | 0, _, _, _, _ => []
  | fuel + 1, alo, ahi, blo, bhi =>
    let m := find_longest_match a b alo ahi blo bhi
    if m.2.2 = 0 then []
    else
      (if alo < m.1 ∧ blo < m.2.1 then mbRec a b fuel alo m.1 blo m.2.1 else []) ++
        [(m.1, m.2.1, m.2.2)] ++
        (if m.1 + m.2.2 < ahi ∧ m.2.1 + m.2.2 < bhi then
          mbRec a b fuel (m.1 + m.2.2) ahi (m.2.1 + m.2.2) bhi else [])

/-- The tuple order used by `list.sort()` on block triples. -/
def blockLe (t u : Nat × Nat × Nat) : Bool :=
  decide (t.1 < u.1) || (decide (t.1 = u.1) &&
    (decide (t.2.1 < u.2.1) || (decide (t.2.1 = u.2.1) && decide (t.2.2 ≤ u.2.2))))

def insertBlock (t : Nat × Nat × Nat) : List (Nat × Nat × Nat) → List (Nat × Nat × Nat)
  | [] => [t]
  | u :: rest => if blockLe t u then t :: u :: rest else u :: insertBlock t rest

/-- `matching_blocks.sort()` (insertion sort; stable, as Python's sort). -/
def sortBlocks : List (Nat × Nat × Nat) → List (Nat × Nat × Nat)
  | [] => []
  | t :: rest => insertBlock t (sortBlocks rest)

/-- The second loop of `get_matching_blocks`, merging adjacent blocks; the
running triple starts at `(0, 0, 0)` and a nonzero accumulated block is
emitted when a non-adjacent block follows (and at the end). -/
def mergeAdjacent : (Nat × Nat × Nat) → List (Nat × Nat × Nat) → List (Nat × Nat × Nat)
  | (i1, j1, k1), [] => if k1 ≠ 0 then [(i1, j1, k1)] else []
  | (i1, j1, k1), (i2, j2, k2) :: rest =>
    if i1 + k1 = i2 ∧ j1 + k1 = j2 then mergeAdjacent (i1, j1, k1 + k2) rest
    else (if k1 ≠ 0 then [(i1, j1, k1)] else []) ++ mergeAdjacent (i2, j2, k2) rest

/-- `get_matching_blocks()`: collect, sort, merge, and append the terminal
`(la, lb, 0)` block. -/
def get_matching_blocks (a b : PyStr) : List (Nat × Nat × Nat) :=
  mergeAdjacent (0, 0, 0)
    (sortBlocks (mbRec a b (a.length + b.length + 1) 0 a.length 0 b.length)) ++
    [(a.length, b.length, 0)]

def sumSizes (l : List (Nat × Nat × Nat)) : Nat := (l.map (fun t => t.2.2)).sum

/-- `_calculate_ratio(matches, length)`, the exact rational
`2 * matches / length` (written with `mkRat` so that it evaluates inside
the kernel; `Rat.mkRat_eq_div` recovers the division form). -/
def calcRatio (m t : Nat) : ℚ :=
  if t ≠ 0 then mkRat (2 * m) t else 1

/-- `SequenceMatcher.ratio()` with `a` as seq1 and `b` as seq2. -/
def seqRatio (a b : PyStr) : ℚ :=
  calcRatio (sumSizes (get_matching_blocks a b)) (a.length + b.length)

/-- The loop of `quick_ratio()`: `avail` is the dictionary of leftover
counts (`Int`, it can go negative) and a character of `a` counts as a
match while its leftover `b`-count is positive. -/
def quickLoop (bcount : Char → Nat) : PyStr → (Char → Option Int) → Nat → Nat
  | [], _, acc => acc
  | c :: rest, avail, acc =>
    let numb : Int := (avail c).getD (bcount c : Int)
    quickLoop bcount rest (fun x => if x = c then some (numb - 1) else avail x)
      (if 0 < numb then acc + 1 else acc)

/-- `SequenceMatcher.quick_ratio()`; `fullbcount` is the counter of `b`. -/
def quick_ratio (a b : PyStr) : ℚ :=
  calcRatio (quickLoop (fun c => b.count c) a (fun _ => none) 0) (a.length + b.length)

/-- `SequenceMatcher.real_quick_ratio()`. -/
def real_quick_ratio (a b : PyStr) : ℚ :=
  calcRatio (min a.length b.length) (a.length + b.length)

/-- The `cutoff=0.6` of `get_close_matches`. -/
def ratioCutoff : ℚ := mkRat 3 5

/-- The screening of one candidate `x` against `word` in
`get_close_matches` (seq1 is the candidate, seq2 the word). -/
def gcmPasses (word x : PyStr) : Bool :=
  decide (ratioCutoff ≤ real_quick_ratio x word) &&
    decide (ratioCutoff ≤ quick_ratio x word) &&
    decide (ratioCutoff ≤ seqRatio x word)

/-- Python string `<` (code-point lexicographic). -/
def pyStrLt : PyStr → PyStr → Bool
  | [], [] => false
  | [], _ :: _ => true
  | _ :: _, [] => false
  | c :: cs, d :: ds =>
    if c.toNat < d.toNat then true else if d.toNat < c.toNat then false else pyStrLt cs ds

/-- Python `>` on `(score, string)` pairs. -/
def tupleGt (p q : ℚ × PyStr) : Bool :=
  decide (q.1 < p.1) || (decide (p.1 = q.1) && pyStrLt q.2 p.2)

/-- Python `max` over a nonempty list: keep the current maximum, replace it
when a later element compares strictly greater. -/
def pyMax : (ℚ × PyStr) → List (ℚ × PyStr) → (ℚ × PyStr)
  | cur, [] => cur
  | cur, x :: rest => pyMax (if tupleGt x cur then x else cur) rest

/-- `get_close_matches(word, possibilities, n=1, cutoff=0.6)`, returning
the single best candidate if any survives the screening
(`heapq.nlargest(1, result)` is `max` on the `(ratio, candidate)` pairs). -/
def get_close_matches1 (word : PyStr) (poss : List PyStr) : Option PyStr :=
  match (poss.filter (gcmPasses word)).map (fun x => (seqRatio x word, x)) with
  | [] => none
  | r :: rs => some (pyMax r rs).2

/-- One `dict[k] = v` assignment: an existing key keeps its position and
gets the new value, a new key is appended. -/
def dictInsert (d : List (PyStr × PyStr)) (k v : PyStr) : List (PyStr × PyStr) :=
  if d.any (fun q => q.1 = k) then d.map (fun q => if q.1 = k then (k, v) else q)
  else d ++ [(k, v)]

/-- `{c.lower(): c for c in categories}`: keys in first-occurrence order,
values the last original spelling. -/
def dictOfLower (cats : List PyStr) : List (PyStr × PyStr) :=
  cats.foldl (fun d c => dictInsert d (pyLower c) c) []

def dictGet? : List (PyStr × PyStr) → PyStr → Option PyStr
  | [], _ => none
  | (k1, v) :: rest, k => if k1 = k then some v else dictGet? rest k

/-- `fuzzy_match_category(user_input, categories)` from `tools/utils.py`. -/
def fuzzy_match_category (user_input : PyStr) (categories : List PyStr) : Option PyStr :=
  let ui := pyStrip (pyLower user_input)
  let pairs := dictOfLower categories
  match get_close_matches1 ui (pairs.map Prod.fst) with
  | none => none
  | some k => dictGet? pairs k

example : seqRatio "groceries".data "grocery".data = mkRat 3 4 := by decide

example : fuzzy_match_category "grocery".data
    ["Groceries".data, "Rent".data, "Shopping".data] = some "Groceries".data := by decide

example : fuzzy_match_category "appl".data ["apple".data, "apply".data] =
    some "apply".data := by decide

example : seqRatio "apple".data "appl".data = mkRat 8 9 ∧
    seqRatio "apply".data "appl".data = mkRat 8 9 := by decide

/-! ## Correctness of the matcher: every reported block is a genuine
common substring, and the collected blocks are mutually disjoint.  This is
what makes `ratio() <= quick_ratio() <= real_quick_ratio()`, so that the
screening of `get_close_matches` accepts exactly the candidates with
`ratio() >= cutoff`. -/

/-- `t = (i, j, k)` is a genuine matching block of the region
`[alo, ahi) x [blo, bhi)`. -/
def BlockValid (a b : PyStr) (alo ahi blo bhi : Nat) (t : Nat × Nat × Nat) : Prop :=
  alo ≤ t.1 ∧ t.1 + t.2.2 ≤ ahi ∧ blo ≤ t.2.1 ∧ t.2.1 + t.2.2 ≤ bhi ∧
    ∀ s < t.2.2, a.getD (t.1 + s) (Char.ofNat 0) = b.getD (t.2.1 + s) (Char.ofNat 0)

theorem blockValid_intro (a b : PyStr) (alo ahi blo bhi i j k : Nat)
    (h1 : alo ≤ i) (h2 : i + k ≤ ahi) (h3 : blo ≤ j) (h4 : j + k ≤ bhi)
    (h5 : ∀ s < k, a.getD (i + s) (Char.ofNat 0) = b.getD (j + s) (Char.ofNat 0)) :
    BlockValid a b alo ahi blo bhi (i, j, k) := ⟨h1, h2, h3, h4, h5⟩

theorem BlockValid.mono {a b : PyStr} {alo ahi blo bhi alo2 ahi2 blo2 bhi2 : Nat}
    {t : Nat × Nat × Nat} (h : BlockValid a b alo ahi blo bhi t) (h1 : alo2 ≤ alo)
    (h2 : ahi ≤ ahi2) (h3 : blo2 ≤ blo) (h4 : bhi ≤ bhi2) :
    BlockValid a b alo2 ahi2 blo2 bhi2 t := by
  obtain ⟨g1, g2, g3, g4, g5⟩ := h
  exact ⟨by omega, by omega, by omega, by omega, g5⟩

/-- Meaning of a `j2len`-style map after processing row `r`: a nonzero
entry at `j` records a common substring of length `m j` ending at `a[r]`,
`b[j]`, inside the row/column windows. -/
def MapInv (a b : PyStr) (alo blo bhi r : Nat) (m : Nat → Nat) : Prop :=
  ∀ j, 0 < m j → m j ≤ j + 1 ∧ m j ≤ r + 1 ∧ blo + m j ≤ j + 1 ∧ alo + m j ≤ r + 1 ∧
    j < bhi ∧ ∀ t < m j, a.getD (r - t) (Char.ofNat 0) = b.getD (j - t) (Char.ofNat 0)

theorem flmInner_spec (a b : PyStr) (alo blo bhi i r : Nat) (m : Nat → Nat)
    (hm : MapInv a b alo blo bhi r m) (hri : r + 1 = i ∨ ∀ j, m j = 0) (hi : alo ≤ i) :
    ∀ (js : List Nat) (newm : Nat → Nat) (best : Nat × Nat × Nat),
      (∀ j ∈ js, b.getD j (Char.ofNat 0) = a.getD i (Char.ofNat 0)) →
      MapInv a b alo blo bhi i newm →
      BlockValid a b alo (i + 1) blo bhi best →
      MapInv a b alo blo bhi i (flmInner blo bhi i m js newm best).1 ∧
        BlockValid a b alo (i + 1) blo bhi (flmInner blo bhi i m js newm best).2 := by
  intro js
  induction js with
  | nil => intro newm best _ hnew hbest; exact ⟨hnew, hbest⟩
  | cons j js ih =>
    intro newm best hjs hnew hbest
    have hj : b.getD j (Char.ofNat 0) = a.getD i (Char.ofNat 0) := hjs j (by simp)
    have hjs2 : ∀ x ∈ js, b.getD x (Char.ofNat 0) = a.getD i (Char.ofNat 0) :=
      fun x hx => hjs x (by simp [hx])
    unfold flmInner
    by_cases c1 : j < blo
    · rw [if_pos c1]
      exact ih newm best hjs2 hnew hbest
    rw [if_neg c1]
    by_cases c2 : bhi ≤ j
    · rw [if_pos c2]
      exact ⟨hnew, hbest⟩
    rw [if_neg c2]
    -- the new entry length
    set kprev : Nat := if j = 0 then 0 else m (j - 1) with hkprev
    have hentry : kprev + 1 ≤ j + 1 ∧ kprev + 1 ≤ i + 1 ∧ blo + (kprev + 1) ≤ j + 1 ∧
        alo + (kprev + 1) ≤ i + 1 ∧
        ∀ t < kprev + 1, a.getD (i - t) (Char.ofNat 0) = b.getD (j - t) (Char.ofNat 0) := by
      have hsmall : kprev = 0 →
          kprev + 1 ≤ j + 1 ∧ kprev + 1 ≤ i + 1 ∧ blo + (kprev + 1) ≤ j + 1 ∧
          alo + (kprev + 1) ≤ i + 1 ∧
          ∀ t < kprev + 1, a.getD (i - t) (Char.ofNat 0) = b.getD (j - t) (Char.ofNat 0) := by
        intro hk0
        rw [hk0]
        refine ⟨by omega, by omega, by omega, by omega, ?_⟩
        intro t ht
        have ht0 : t = 0 := by omega
        subst ht0
        simpa using hj.symm
      by_cases hj0 : j = 0
      · exact hsmall (by rw [hkprev, if_pos hj0])
      by_cases hz : m (j - 1) = 0
      · exact hsmall (by rw [hkprev, if_neg hj0, hz])
      · have hk : kprev = m (j - 1) := by rw [hkprev, if_neg hj0]
        have hpos : 0 < m (j - 1) := by omega
        obtain ⟨g1, g2, g3, g4, g5, g6⟩ := hm (j - 1) hpos
        have hrieq : r + 1 = i := by
          rcases hri with h | h
          · exact h
          · exact absurd (h (j - 1)) hz
        rw [hk]
        refine ⟨by omega, by omega, by omega, by omega, ?_⟩
        intro t ht
        cases t with
        | zero => simpa using hj.symm
        | succ t2 =>
          have h1 : i - (t2 + 1) = r - t2 := by omega
          have h2 : j - (t2 + 1) = (j - 1) - t2 := by omega
          rw [h1, h2]
          exact g6 t2 (by omega)
    obtain ⟨he1, he2, he3, he4, he5⟩ := hentry
    have hnew2 : MapInv a b alo blo bhi i
        (fun x => if x = j then kprev + 1 else newm x) := by
      intro x hx
      by_cases hxj : x = j
      · subst hxj
        simp only [if_pos rfl]
        exact ⟨he1, he2, he3, he4, by omega, he5⟩
      · simp only [if_neg hxj] at hx ⊢
        exact hnew x hx
    have hbest2 : BlockValid a b alo (i + 1) blo bhi
        (if best.2.2 < kprev + 1 then (i + 1 - (kprev + 1), j + 1 - (kprev + 1), kprev + 1)
          else best) := by
      by_cases hlt : best.2.2 < kprev + 1
      · rw [if_pos hlt]
        apply blockValid_intro
        · omega
        · omega
        · omega
        · omega
        · intro s hs
          have h1 : i + 1 - (kprev + 1) + s = i - (kprev - s) := by omega
          have h2 : j + 1 - (kprev + 1) + s = j - (kprev - s) := by omega
          rw [h1, h2]
          exact he5 (kprev - s) (by omega)
      · rw [if_neg hlt]
        exact hbest
    exact ih _ _ hjs2 hnew2 hbest2

theorem occIndices_mem {b : PyStr} {c : Char} {j : Nat} (h : j ∈ occIndices b c) :
    j < b.length ∧ b.getD j (Char.ofNat 0) = c := by
  unfold occIndices at h
  rw [List.mem_filter] at h
  obtain ⟨h1, h2⟩ := h
  exact ⟨List.mem_range.mp h1, by simpa using h2⟩

theorem b2j_mem {b : PyStr} {c : Char} {j : Nat} (h : j ∈ b2j b c) :
    j < b.length ∧ b.getD j (Char.ofNat 0) = c := by
  unfold b2j at h
  by_cases hp : isPopular b c
  · rw [if_pos hp] at h
    simp at h
  · rw [if_neg hp] at h
    exact occIndices_mem h

theorem flmRows_spec (a b : PyStr) (blo bhi alo : Nat) :
    ∀ (cnt start : Nat) (r : Nat) (m : Nat → Nat) (best : Nat × Nat × Nat), alo ≤ start →
      MapInv a b alo blo bhi r m → (r + 1 = start ∨ ∀ j, m j = 0) →
      BlockValid a b alo start blo bhi best →
      BlockValid a b alo (start + cnt) blo bhi
        (flmRows a b blo bhi (List.range' start cnt) m best) := by
  intro cnt
  induction cnt with
  | zero =>
    intro start r m best _ _ _ hbest
    simpa using hbest
  | succ cnt ih =>
    intro start r m best hs hm hri hbest
    have hrange : List.range' start (cnt + 1) = start :: List.range' (start + 1) cnt := rfl
    rw [hrange]
    unfold flmRows
    have hstep := flmInner_spec a b alo blo bhi start r m hm hri hs
      (b2j b (a.getD start (Char.ofNat 0))) (fun _ => 0) best
      (fun j hj => (b2j_mem hj).2)
      (fun j hj => absurd hj (by simp))
      (hbest.mono (by omega) (by omega) (by omega) (by omega))
    have := ih (start + 1) start _ _ (by omega) hstep.1 (Or.inl rfl) hstep.2
    have harith : start + 1 + cnt = start + (cnt + 1) := by omega
    rw [harith] at this
    exact this

theorem extendFront_spec (a b : PyStr) (alo ahi blo bhi : Nat) (p : Char → Bool) :
    ∀ (fuel : Nat) (best : Nat × Nat × Nat), BlockValid a b alo ahi blo bhi best →
      BlockValid a b alo ahi blo bhi (extendFront a b alo blo p fuel best) := by
  intro fuel
  induction fuel with
  | zero => intro best hbest; exact hbest
  | succ fuel ih =>
    intro best hbest
    obtain ⟨besti, bestj, bestsize⟩ := best
    unfold extendFront
    by_cases hc : alo < besti ∧ blo < bestj ∧
        p (b.getD (bestj - 1) (Char.ofNat 0)) = true ∧
        a.getD (besti - 1) (Char.ofNat 0) = b.getD (bestj - 1) (Char.ofNat 0)
    · rw [if_pos hc]
      obtain ⟨g1, g2, g3, g4⟩ := hc
      obtain ⟨b1, b2, b3, b4, b5⟩ := hbest
      have c1 : alo ≤ besti := b1
      have c2 : besti + bestsize ≤ ahi := b2
      have c3 : blo ≤ bestj := b3
      have c4 : bestj + bestsize ≤ bhi := b4
      have c5 : ∀ s < bestsize,
          a.getD (besti + s) (Char.ofNat 0) = b.getD (bestj + s) (Char.ofNat 0) := b5
      apply ih
      apply blockValid_intro
      · omega
      · omega
      · omega
      · omega
      · intro s hs
        cases s with
        | zero => simpa using g4
        | succ s2 =>
          have h1 : besti - 1 + (s2 + 1) = besti + s2 := by omega
          have h2 : bestj - 1 + (s2 + 1) = bestj + s2 := by omega
          rw [h1, h2]
          exact c5 s2 (by omega)
    · rw [if_neg hc]
      exact hbest

theorem extendBack_spec (a b : PyStr) (alo ahi blo bhi : Nat) (p : Char → Bool) :
    ∀ (fuel : Nat) (best : Nat × Nat × Nat), BlockValid a b alo ahi blo bhi best →
      BlockValid a b alo ahi blo bhi (extendBack a b ahi bhi p fuel best) := by
  intro fuel
  induction fuel with
  | zero => intro best hbest; exact hbest
  | succ fuel ih =>
    intro best hbest
    obtain ⟨besti, bestj, bestsize⟩ := best
    unfold extendBack
    by_cases hc : besti + bestsize < ahi ∧ bestj + bestsize < bhi ∧
        p (b.getD (bestj + bestsize) (Char.ofNat 0)) = true ∧
        a.getD (besti + bestsize) (Char.ofNat 0) = b.getD (bestj + bestsize) (Char.ofNat 0)
    · rw [if_pos hc]
      obtain ⟨g1, g2, g3, g4⟩ := hc
      obtain ⟨b1, b2, b3, b4, b5⟩ := hbest
      have c1 : alo ≤ besti := b1
      have c2 : besti + bestsize ≤ ahi := b2
      have c3 : blo ≤ bestj := b3
      have c4 : bestj + bestsize ≤ bhi := b4
      have c5 : ∀ s < bestsize,
          a.getD (besti + s) (Char.ofNat 0) = b.getD (bestj + s) (Char.ofNat 0) := b5
      apply ih
      apply blockValid_intro
      · omega
      · omega
      · omega
      · omega
      · intro s hs
        by_cases hss : s = bestsize
        · subst hss
          exact g4
        · exact c5 s (by omega)
    · rw [if_neg hc]
      exact hbest

theorem find_longest_match_spec (a b : PyStr) (alo ahi blo bhi : Nat)
    (h1 : alo ≤ ahi) (h2 : blo ≤ bhi) :
    BlockValid a b alo ahi blo bhi (find_longest_match a b alo ahi blo bhi) := by
  unfold find_longest_match
  have hrows := flmRows_spec a b blo bhi alo (ahi - alo) alo 0 (fun _ => 0) (alo, blo, 0)
    (by omega) (fun j hj => absurd hj (by simp)) (Or.inr fun j => rfl)
    (blockValid_intro a b alo alo blo bhi alo blo 0 (by omega) (by omega) (by omega)
      (by omega) (by omega))
  have harith : alo + (ahi - alo) = ahi := by omega
  rw [harith] at hrows
  apply extendBack_spec
  apply extendFront_spec
  apply extendBack_spec
  apply extendFront_spec
  exact hrows

/-- Two blocks in sorted position: the first ends before the second starts,
in both sequences. -/
def blockDisj (t u : Nat × Nat × Nat) : Prop :=
  t.1 + t.2.2 ≤ u.1 ∧ t.2.1 + t.2.2 ≤ u.2.1

theorem mbRec_spec (a b : PyStr) : ∀ (fuel alo ahi blo bhi : Nat), alo ≤ ahi → blo ≤ bhi →
    (∀ t ∈ mbRec a b fuel alo ahi blo bhi, BlockValid a b alo ahi blo bhi t ∧ 0 < t.2.2) ∧
      List.Pairwise blockDisj (mbRec a b fuel alo ahi blo bhi) := by
  intro fuel
  induction fuel with
  | zero =>
    intro alo ahi blo bhi _ _
    constructor
    · intro t ht; simp [mbRec] at ht
    · simp [mbRec]
  | succ fuel ih =>
    intro alo ahi blo bhi h1 h2
    have hv := find_longest_match_spec a b alo ahi blo bhi h1 h2
    set m := find_longest_match a b alo ahi blo bhi with hm
    obtain ⟨v1, v2, v3, v4, v5⟩ := hv
    unfold mbRec
    rw [← hm]
    by_cases hk : m.2.2 = 0
    · rw [if_pos hk]
      constructor
      · intro t ht; simp at ht
      · simp
    rw [if_neg hk]
    have hmidvalid : BlockValid a b alo ahi blo bhi (m.1, m.2.1, m.2.2) := ⟨v1, v2, v3, v4, v5⟩
    have hL : (∀ t ∈ (if alo < m.1 ∧ blo < m.2.1 then mbRec a b fuel alo m.1 blo m.2.1 else []),
        BlockValid a b alo m.1 blo m.2.1 t ∧ 0 < t.2.2) ∧
        List.Pairwise blockDisj
          (if alo < m.1 ∧ blo < m.2.1 then mbRec a b fuel alo m.1 blo m.2.1 else []) := by
      by_cases hc : alo < m.1 ∧ blo < m.2.1
      · rw [if_pos hc]
        exact ih alo m.1 blo m.2.1 (by omega) (by omega)
      · rw [if_neg hc]
        exact ⟨fun t ht => absurd ht (by simp), by simp⟩
    have hR : (∀ t ∈ (if m.1 + m.2.2 < ahi ∧ m.2.1 + m.2.2 < bhi then
          mbRec a b fuel (m.1 + m.2.2) ahi (m.2.1 + m.2.2) bhi else []),
        BlockValid a b (m.1 + m.2.2) ahi (m.2.1 + m.2.2) bhi t ∧ 0 < t.2.2) ∧
        List.Pairwise blockDisj
          (if m.1 + m.2.2 < ahi ∧ m.2.1 + m.2.2 < bhi then
            mbRec a b fuel (m.1 + m.2.2) ahi (m.2.1 + m.2.2) bhi else []) := by
      by_cases hc : m.1 + m.2.2 < ahi ∧ m.2.1 + m.2.2 < bhi
      · rw [if_pos hc]
        exact ih (m.1 + m.2.2) ahi (m.2.1 + m.2.2) bhi (by omega) (by omega)
      · rw [if_neg hc]
        exact ⟨fun t ht => absurd ht (by simp), by simp⟩
    obtain ⟨hLv, hLp⟩ := hL
    obtain ⟨hRv, hRp⟩ := hR
    constructor
    · intro t ht
      rw [List.append_assoc, List.mem_append] at ht
      rcases ht with ht | ht
      · have := hLv t ht
        exact ⟨this.1.mono (by omega) (by omega) (by omega) (by omega), this.2⟩
      · rw [List.mem_append] at ht
        rcases ht with ht | ht
        · rw [List.mem_singleton] at ht
          subst ht
          exact ⟨hmidvalid, (by omega : 0 < m.2.2)⟩
        · have := hRv t ht
          exact ⟨this.1.mono (by omega) (by omega) (by omega) (by omega), this.2⟩
    · rw [List.append_assoc, List.pairwise_append]
      refine ⟨hLp, ?_, ?_⟩
      · rw [List.pairwise_append]
        refine ⟨by simp, hRp, ?_⟩
        intro t ht u hu
        rw [List.mem_singleton] at ht
        subst ht
        obtain ⟨⟨u1, _, u3, _, _⟩, _⟩ := hRv u hu
        exact ⟨by simp; omega, by simp; omega⟩
      · intro t ht u hu
        obtain ⟨⟨_, t2, _, t4, _⟩, _⟩ := hLv t ht
        rw [List.mem_append] at hu
        rcases hu with hu | hu
        · rw [List.mem_singleton] at hu
          subst hu
          exact ⟨by simp; omega, by simp; omega⟩
        · obtain ⟨⟨u1, _, u3, _, _⟩, _⟩ := hRv u hu
          exact ⟨by omega, by omega⟩

/-- The matched position pairs contributed by a list of blocks. -/
def blockPairs (l : List (Nat × Nat × Nat)) : List (Nat × Nat) :=
  l.flatMap (fun t => (List.range t.2.2).map (fun s => (t.1 + s, t.2.1 + s)))

theorem blockPairs_length : ∀ l, (blockPairs l).length = sumSizes l := by
  intro l
  induction l with
  | nil => rfl
  | cons t rest ih =>
    simp only [blockPairs, List.flatMap_cons, List.length_append, List.length_map,
      List.length_range] at *
    simp [sumSizes, ih]

theorem blockPairs_mem {l : List (Nat × Nat × Nat)} {p : Nat × Nat} :
    p ∈ blockPairs l ↔ ∃ t ∈ l, ∃ s < t.2.2, p = (t.1 + s, t.2.1 + s) := by
  unfold blockPairs
  rw [List.mem_flatMap]
  constructor
  · rintro ⟨t, ht, hp⟩
    rw [List.mem_map] at hp
    obtain ⟨s, hs, he⟩ := hp
    exact ⟨t, ht, s, List.mem_range.mp hs, he.symm⟩
  · rintro ⟨t, ht, s, hs, he⟩
    refine ⟨t, ht, ?_⟩
    rw [List.mem_map]
    exact ⟨s, List.mem_range.mpr hs, he.symm⟩

theorem blockPairs_pairwise {l : List (Nat × Nat × Nat)}
    (h : List.Pairwise blockDisj l) :
    (blockPairs l).Pairwise (fun p q => p.1 < q.1 ∧ p.2 < q.2) := by
  induction l with
  | nil => simp [blockPairs]
  | cons t rest ih =>
    rw [List.pairwise_cons] at h
    obtain ⟨hhead, htail⟩ := h
    simp only [blockPairs, List.flatMap_cons]
    rw [List.pairwise_append]
    refine ⟨?_, ih htail, ?_⟩
    · rw [List.pairwise_map]
      refine List.Pairwise.imp ?_ (List.pairwise_lt_range t.2.2)
      intro s s2 hss
      exact ⟨by simp; omega, by simp; omega⟩
    · intro p hp q hq
      rw [List.mem_map] at hp
      obtain ⟨s, hs, hpe⟩ := hp
      have hq2 : q ∈ blockPairs rest := hq
      rw [blockPairs_mem] at hq2
      obtain ⟨u, hu, s2, hs2, hqe⟩ := hq2
      obtain ⟨hd1, hd2⟩ := hhead u hu
      rw [List.mem_range] at hs
      subst hpe hqe
      exact ⟨by simp; omega, by simp; omega⟩

/-- The indices of the occurrences of `c` are exactly `count c` many. -/
theorem occIndices_length (l : PyStr) (c : Char) : (occIndices l c).length = l.count c := by
  induction l with
  | nil => rfl
  | cons x xs ih =>
    unfold occIndices at ih ⊢
    have hlen : (x :: xs).length = xs.length + 1 := rfl
    rw [hlen, List.range_succ_eq_map, List.filter_cons]
    have hfm : (List.map Nat.succ (List.range xs.length)).filter
        (fun i => decide ((x :: xs).getD i (Char.ofNat 0) = c)) =
        ((List.range xs.length).filter
          (fun i => decide (xs.getD i (Char.ofNat 0) = c))).map Nat.succ := by
      rw [List.filter_map]
      rfl
    have hx0 : (x :: xs).getD 0 (Char.ofNat 0) = x := rfl
    by_cases hxc : x = c
    · rw [if_pos (by simp [hx0, hxc])]
      simp only [List.length_cons, hfm, List.length_map]
      rw [ih, List.count_cons]
      simp [hxc]
    · rw [if_neg (by simp [hx0, hxc])]
      simp only [hfm, List.length_map]
      rw [ih, List.count_cons]
      simp [hxc]

theorem occIndices_nodup (l : PyStr) (c : Char) : (occIndices l c).Nodup :=
  (List.nodup_range _).filter _

/-- Distinct in-range positions all holding `c` are at most `count c` many. -/
theorem count_le_of_nodup_positions (l : PyStr) (c : Char) (L : List Nat) (hnd : L.Nodup)
    (hmem : ∀ i ∈ L, i < l.length ∧ l.getD i (Char.ofNat 0) = c) :
    L.length ≤ l.count c := by
  have hsub : L ⊆ occIndices l c := by
    intro i hi
    obtain ⟨h1, h2⟩ := hmem i hi
    unfold occIndices
    rw [List.mem_filter]
    exact ⟨List.mem_range.mpr h1, by simpa using h2⟩
  calc L.length ≤ (occIndices l c).length := (hnd.subperm hsub).length_le
    _ = l.count c := occIndices_length l c

theorem count_map_getD_le (l : PyStr) (c : Char) (L : List Nat) (hnd : L.Nodup)
    (hlt : ∀ i ∈ L, i < l.length) :
    (L.map (fun i => l.getD i (Char.ofNat 0))).count c ≤ l.count c := by
  rw [List.count_eq_countP, List.countP_map, List.countP_eq_length_filter]
  apply count_le_of_nodup_positions l c _ (hnd.filter _)
  intro i hi
  rw [List.mem_filter] at hi
  obtain ⟨hiL, hieq⟩ := hi
  simp only [Function.comp_apply, beq_iff_eq] at hieq
  exact ⟨hlt i hiL, hieq⟩

/-- Disjointly matched pairs of equal characters are at most as many as the
multiset intersection of the two strings. -/
theorem pairs_card_le_inter (a b : PyStr) (P : List (Nat × Nat))
    (hfst : (P.map Prod.fst).Nodup) (hsnd : (P.map Prod.snd).Nodup)
    (hmem : ∀ p ∈ P, p.1 < a.length ∧ p.2 < b.length ∧
      a.getD p.1 (Char.ofNat 0) = b.getD p.2 (Char.ofNat 0)) :
    P.length ≤ Multiset.card ((↑a : Multiset Char) ∩ ↑b) := by
  have hle : (↑(P.map (fun p => a.getD p.1 (Char.ofNat 0))) : Multiset Char) ≤
      (↑a : Multiset Char) ∩ ↑b := by
    apply Multiset.le_inter
    · rw [Multiset.le_iff_count]
      intro c
      simp only [Multiset.coe_count]
      have hmm : P.map (fun p => a.getD p.1 (Char.ofNat 0)) =
          (P.map Prod.fst).map (fun i => a.getD i (Char.ofNat 0)) := by
        rw [List.map_map]; rfl
      rw [hmm]
      apply count_map_getD_le a c (P.map Prod.fst) hfst
      intro i hi
      rw [List.mem_map] at hi
      obtain ⟨p, hp, he⟩ := hi
      subst he
      exact (hmem p hp).1
    · rw [Multiset.le_iff_count]
      intro c
      simp only [Multiset.coe_count]
      have hswap : P.map (fun p => a.getD p.1 (Char.ofNat 0)) =
          P.map (fun p => b.getD p.2 (Char.ofNat 0)) :=
        List.map_congr_left (fun p hp => (hmem p hp).2.2)
      have hmm : P.map (fun p => b.getD p.2 (Char.ofNat 0)) =
          (P.map Prod.snd).map (fun j => b.getD j (Char.ofNat 0)) := by
        rw [List.map_map]; rfl
      rw [hswap, hmm]
      apply count_map_getD_le b c (P.map Prod.snd) hsnd
      intro j hj
      rw [List.mem_map] at hj
      obtain ⟨p, hp, he⟩ := hj
      subst he
      exact (hmem p hp).2.1
  have hcard := Multiset.card_le_card hle
  simp only [Multiset.coe_card, List.length_map] at hcard
  exact hcard

/-! ## `quick_ratio` counts the multiset intersection -/

theorem card_inter_append (pre b : PyStr) (c : Char) :
    Multiset.card ((↑(pre ++ [c]) : Multiset Char) ∩ ↑b) =
      Multiset.card ((↑pre : Multiset Char) ∩ ↑b) +
        (if pre.count c < b.count c then 1 else 0) := by
  have hms : (↑(pre ++ [c]) : Multiset Char) ∩ ↑b =
      ((↑pre : Multiset Char) ∩ ↑b) + (if pre.count c < b.count c then {c} else 0) := by
    ext x
    rw [Multiset.count_inter, Multiset.count_add, Multiset.count_inter]
    simp only [Multiset.coe_count, List.count_append]
    by_cases hx : x = c
    · subst hx
      have h1 : [x].count x = 1 := by simp
      rw [h1]
      by_cases hlt : pre.count x < b.count x
      · rw [if_pos hlt]
        have h2 : Multiset.count x {x} = 1 := by simp
        rw [h2]
        omega
      · rw [if_neg hlt]
        have h2 : Multiset.count x (0 : Multiset Char) = 0 := by simp
        rw [h2]
        omega
    · have h0 : [c].count x = 0 := by
        rw [List.count_eq_zero]
        simp [hx]
      rw [h0]
      by_cases hlt : pre.count c < b.count c
      · rw [if_pos hlt]
        have h2 : Multiset.count x {c} = 0 := by
          rw [Multiset.count_singleton, if_neg hx]
        rw [h2]
        omega
      · rw [if_neg hlt]
        have h2 : Multiset.count x (0 : Multiset Char) = 0 := by simp
        rw [h2]
        omega
  rw [hms, Multiset.card_add]
  by_cases hlt : pre.count c < b.count c
  · rw [if_pos hlt, if_pos hlt]
    simp
  · rw [if_neg hlt, if_neg hlt]
    simp

theorem quickLoop_eq_inter (b : PyStr) : ∀ (rest pre : PyStr),
    quickLoop (fun c => b.count c) rest
        (fun c => if c ∈ pre then some ((b.count c : Int) - pre.count c) else none)
        (Multiset.card ((↑pre : Multiset Char) ∩ ↑b)) =
      Multiset.card ((↑(pre ++ rest) : Multiset Char) ∩ ↑b) := by
  intro rest
  induction rest with
  | nil => intro pre; simp [quickLoop]
  | cons c cs ih =>
    intro pre
    set A0 : Char → Option Int :=
      fun x => if x ∈ pre then some ((b.count x : Int) - pre.count x) else none with hA0
    have hstep : quickLoop (fun x => b.count x) (c :: cs) A0
        (Multiset.card ((↑pre : Multiset Char) ∩ ↑b)) =
        quickLoop (fun x => b.count x) cs
          (fun x => if x = c then some ((A0 c).getD (b.count c : Int) - 1) else A0 x)
          (if 0 < (A0 c).getD (b.count c : Int) then
            Multiset.card ((↑pre : Multiset Char) ∩ ↑b) + 1
          else Multiset.card ((↑pre : Multiset Char) ∩ ↑b)) := rfl
    rw [hstep]
    have hnumb : (A0 c).getD (b.count c : Int) = (b.count c : Int) - pre.count c := by
      by_cases hcp : c ∈ pre
      · simp [hA0, hcp]
      · have h0 : pre.count c = 0 := by
          rw [List.count_eq_zero]
          exact hcp
        simp [hA0, hcp, h0]
    rw [hnumb]
    have havail : (fun x => if x = c then some ((b.count c : Int) - pre.count c - 1)
        else A0 x) = (fun x => if x ∈ pre ++ [c] then
          some ((b.count x : Int) - (pre ++ [c]).count x) else none) := by
      funext x
      simp only [hA0]
      by_cases hx : x = c
      · subst hx
        rw [if_pos rfl, if_pos (by simp)]
        have hcnt : (pre ++ [x]).count x = pre.count x + 1 := by
          rw [List.count_append]
          simp
        rw [hcnt]
        congr 1
        push_cast
        ring
      · rw [if_neg hx]
        by_cases hxp : x ∈ pre
        · rw [if_pos hxp, if_pos (by simp [hxp])]
          have hcnt : (pre ++ [c]).count x = pre.count x := by
            rw [List.count_append]
            have h0 : [c].count x = 0 := by
              rw [List.count_eq_zero]
              simp [hx]
            rw [h0]
            omega
          rw [hcnt]
        · rw [if_neg hxp, if_neg (by simp [hxp, hx])]
    have hacc : (if (0 : Int) < (b.count c : Int) - pre.count c then
        Multiset.card ((↑pre : Multiset Char) ∩ ↑b) + 1
        else Multiset.card ((↑pre : Multiset Char) ∩ ↑b)) =
        Multiset.card ((↑(pre ++ [c]) : Multiset Char) ∩ ↑b) := by
      rw [card_inter_append]
      by_cases hlt : pre.count c < b.count c
      · rw [if_pos hlt, if_pos (by omega)]
      · rw [if_neg hlt, if_neg (by omega)]
        simp
    rw [havail, hacc, ih (pre ++ [c])]
    congr 1
    simp

theorem quickM_eq (a b : PyStr) :
    quickLoop (fun c => b.count c) a (fun _ => none) 0 =
      Multiset.card ((↑a : Multiset Char) ∩ ↑b) := by
  have h0 := quickLoop_eq_inter b a []
  have hfun : (fun c => if c ∈ ([] : PyStr) then some ((b.count c : Int) - ([] : PyStr).count c)
      else none) = (fun _ : Char => (none : Option Int)) := by
    funext x
    simp
  rw [hfun] at h0
  have hcard0 : Multiset.card ((↑([] : PyStr) : Multiset Char) ∩ ↑b) = 0 := by
    simp
  rw [hcard0] at h0
  simpa using h0

/-! ## The three ratios are ordered -/

theorem sumSizes_append (l r : List (Nat × Nat × Nat)) :
    sumSizes (l ++ r) = sumSizes l + sumSizes r := by
  simp [sumSizes]

theorem sumSizes_cons (t : Nat × Nat × Nat) (l : List (Nat × Nat × Nat)) :
    sumSizes (t :: l) = t.2.2 + sumSizes l := by
  simp [sumSizes]

theorem sumSizes_insertBlock (t : Nat × Nat × Nat) (l : List (Nat × Nat × Nat)) :
    sumSizes (insertBlock t l) = t.2.2 + sumSizes l := by
  induction l with
  | nil => simp [insertBlock, sumSizes]
  | cons u rest ih =>
    unfold insertBlock
    by_cases hle : blockLe t u
    · rw [if_pos hle, sumSizes_cons]
    · rw [if_neg hle, sumSizes_cons, sumSizes_cons, ih]
      omega

theorem sumSizes_sortBlocks (l : List (Nat × Nat × Nat)) :
    sumSizes (sortBlocks l) = sumSizes l := by
  induction l with
  | nil => rfl
  | cons t rest ih =>
    unfold sortBlocks
    rw [sumSizes_insertBlock, ih, sumSizes_cons]

theorem sumSizes_mergeAdjacent : ∀ (l : List (Nat × Nat × Nat)) (t : Nat × Nat × Nat),
    sumSizes (mergeAdjacent t l) = t.2.2 + sumSizes l := by
  intro l
  induction l with
  | nil =>
    intro t
    obtain ⟨i1, j1, k1⟩ := t
    unfold mergeAdjacent
    by_cases hk : k1 ≠ 0
    · rw [if_pos hk]
      simp [sumSizes]
    · rw [if_neg hk]
      simp only [ne_eq, Decidable.not_not] at hk
      simp [sumSizes, hk]
  | cons u rest ih =>
    intro t
    obtain ⟨i1, j1, k1⟩ := t
    obtain ⟨i2, j2, k2⟩ := u
    unfold mergeAdjacent
    by_cases hadj : i1 + k1 = i2 ∧ j1 + k1 = j2
    · rw [if_pos hadj, ih]
      rw [sumSizes_cons]
      simp only []
      omega
    · rw [if_neg hadj, sumSizes_append, ih, sumSizes_cons]
      by_cases hk : k1 ≠ 0
      · rw [if_pos hk]
        simp [sumSizes]
      · rw [if_neg hk]
        simp only [ne_eq, Decidable.not_not] at hk
        simp [sumSizes, hk]

theorem sumSizes_gmb (a b : PyStr) :
    sumSizes (get_matching_blocks a b) =
      sumSizes (mbRec a b (a.length + b.length + 1) 0 a.length 0 b.length) := by
  unfold get_matching_blocks
  rw [sumSizes_append, sumSizes_mergeAdjacent, sumSizes_sortBlocks]
  simp [sumSizes]

theorem gmb_matches_le_inter (a b : PyStr) :
    sumSizes (get_matching_blocks a b) ≤ Multiset.card ((↑a : Multiset Char) ∩ ↑b) := by
  rw [sumSizes_gmb]
  obtain ⟨hval, hpairw⟩ :=
    mbRec_spec a b (a.length + b.length + 1) 0 a.length 0 b.length (by omega) (by omega)
  set bl := mbRec a b (a.length + b.length + 1) 0 a.length 0 b.length with hbl
  rw [← blockPairs_length]
  have hpp := blockPairs_pairwise hpairw
  apply pairs_card_le_inter
  · exact ((List.pairwise_map).mpr (hpp.imp (fun h => h.1))).imp Nat.ne_of_lt
  · exact ((List.pairwise_map).mpr (hpp.imp (fun h => h.2))).imp Nat.ne_of_lt
  · intro p hp
    rw [blockPairs_mem] at hp
    obtain ⟨t, ht, s, hs, he⟩ := hp
    obtain ⟨⟨t1, t2, t3, t4, t5⟩, tpos⟩ := hval t ht
    subst he
    refine ⟨?_, ?_, ?_⟩
    · simp only []
      omega
    · simp only []
      omega
    · simpa using t5 s hs

theorem calcRatio_mono {m1 m2 t : Nat} (h : m1 ≤ m2) : calcRatio m1 t ≤ calcRatio m2 t := by
  unfold calcRatio
  by_cases ht : t ≠ 0
  · rw [if_pos ht, if_pos ht, Rat.mkRat_eq_div, Rat.mkRat_eq_div]
    have hc : (0 : ℚ) < (t : ℚ) := by
      have : 0 < t := Nat.pos_of_ne_zero ht
      exact_mod_cast this
    rw [div_le_div_iff_of_pos_right hc]
    have h2 : ((2 * m1 : Nat) : Int) ≤ ((2 * m2 : Nat) : Int) := by omega
    exact_mod_cast h2
  · rw [if_neg ht, if_neg ht]

theorem seqRatio_le_quick_ratio (a b : PyStr) : seqRatio a b ≤ quick_ratio a b := by
  unfold seqRatio quick_ratio
  apply calcRatio_mono
  rw [quickM_eq]
  exact gmb_matches_le_inter a b

theorem quickM_le_min (a b : PyStr) :
    quickLoop (fun c => b.count c) a (fun _ => none) 0 ≤ min a.length b.length := by
  rw [quickM_eq]
  refine le_min ?_ ?_
  · have := Multiset.card_le_card (Multiset.inter_le_left (↑a : Multiset Char) ↑b)
    simpa using this
  · have := Multiset.card_le_card (Multiset.inter_le_right (↑a : Multiset Char) ↑b)
    simpa using this

theorem quick_ratio_le_real_quick_ratio (a b : PyStr) :
    quick_ratio a b ≤ real_quick_ratio a b := by
  unfold quick_ratio real_quick_ratio
  exact calcRatio_mono (quickM_le_min a b)

/-- The three-filter screening of `get_close_matches` accepts exactly the
candidates whose `ratio()` clears the cutoff. -/
theorem gcmPasses_iff (word x : PyStr) :
    gcmPasses word x = true ↔ ratioCutoff ≤ seqRatio x word := by
  unfold gcmPasses
  simp only [Bool.and_eq_true, decide_eq_true_eq]
  constructor
  · rintro ⟨⟨_, _⟩, h3⟩
    exact h3
  · intro h
    have h2 : ratioCutoff ≤ quick_ratio x word :=
      le_trans h (seqRatio_le_quick_ratio x word)
    have h1 : ratioCutoff ≤ real_quick_ratio x word :=
      le_trans h2 (quick_ratio_le_real_quick_ratio x word)
    exact ⟨⟨h1, h2⟩, h⟩

/-! ## The maximum taken by `heapq.nlargest(1, ...)` -/

theorem char_toNat_inj {c d : Char} (h : c.toNat = d.toNat) : c = d := by
  apply Char.ext
  have h2 : c.val.toBitVec.toNat = d.val.toBitVec.toNat := h
  exact UInt32.toBitVec_injective (BitVec.toNat_injective h2)

theorem pyStrLt_irrefl : ∀ s : PyStr, pyStrLt s s = false := by
  intro s
  induction s with
  | nil => rfl
  | cons c cs ih =>
    unfold pyStrLt
    rw [if_neg (by omega), if_neg (by omega)]
    exact ih

theorem pyStrLt_trans : ∀ s t u : PyStr,
    pyStrLt s t = true → pyStrLt t u = true → pyStrLt s u = true := by
  intro s
  induction s with
  | nil =>
    intro t u hst htu
    cases t with
    | nil => exact htu
    | cons d ds =>
      cases u with
      | nil => simp [pyStrLt] at htu
      | cons e es => rfl
  | cons c cs ih =>
    intro t u hst htu
    cases t with
    | nil => simp [pyStrLt] at hst
    | cons d ds =>
      cases u with
      | nil => simp [pyStrLt] at htu
      | cons e es =>
        unfold pyStrLt at hst htu ⊢
        by_cases h1 : c.toNat < d.toNat
        · rw [if_pos h1] at hst
          by_cases h2 : d.toNat < e.toNat
          · rw [if_pos (by omega)]
          · rw [if_neg h2] at htu
            by_cases h3 : e.toNat < d.toNat
            · rw [if_pos h3] at htu
              simp at htu
            · have hde : d = e := char_toNat_inj (by omega)
              subst hde
              rw [if_pos h1]
        · rw [if_neg h1] at hst
          by_cases h1b : d.toNat < c.toNat
          · rw [if_pos h1b] at hst
            simp at hst
          · have hcd : c = d := char_toNat_inj (by omega)
            subst hcd
            rw [if_neg h1b] at hst
            by_cases h2 : c.toNat < e.toNat
            · rw [if_pos h2]
            · rw [if_neg h2] at htu ⊢
              by_cases h3 : e.toNat < c.toNat
              · rw [if_pos h3] at htu
                simp at htu
              · rw [if_neg h3] at htu ⊢
                exact ih ds es hst htu

theorem pyStrLt_total : ∀ s t : PyStr,
    s = t ∨ pyStrLt s t = true ∨ pyStrLt t s = true := by
  intro s
  induction s with
  | nil =>
    intro t
    cases t with
    | nil => exact Or.inl rfl
    | cons d ds => exact Or.inr (Or.inl rfl)
  | cons c cs ih =>
    intro t
    cases t with
    | nil => exact Or.inr (Or.inr rfl)
    | cons d ds =>
      by_cases h1 : c.toNat < d.toNat
      · refine Or.inr (Or.inl ?_)
        unfold pyStrLt
        rw [if_pos h1]
      by_cases h2 : d.toNat < c.toNat
      · refine Or.inr (Or.inr ?_)
        unfold pyStrLt
        rw [if_pos h2]
      have hcd : c = d := char_toNat_inj (by omega)
      subst hcd
      rcases ih ds with h | h | h
      · exact Or.inl (by rw [h])
      · refine Or.inr (Or.inl ?_)
        unfold pyStrLt
        rw [if_neg (by omega), if_neg (by omega)]
        exact h
      · refine Or.inr (Or.inr ?_)
        unfold pyStrLt
        rw [if_neg (by omega), if_neg (by omega)]
        exact h

theorem tupleGt_irrefl (p : ℚ × PyStr) : tupleGt p p = false := by
  unfold tupleGt
  simp [pyStrLt_irrefl]

theorem tupleGt_trans {p q r : ℚ × PyStr} (h1 : tupleGt p q = true)
    (h2 : tupleGt q r = true) : tupleGt p r = true := by
  unfold tupleGt at h1 h2 ⊢
  simp only [Bool.or_eq_true, Bool.and_eq_true, decide_eq_true_eq] at h1 h2 ⊢
  rcases h1 with h1 | ⟨h1e, h1s⟩
  · rcases h2 with h2 | ⟨h2e, h2s⟩
    · exact Or.inl (lt_trans h2 h1)
    · exact Or.inl (h2e ▸ h1)
  · rcases h2 with h2 | ⟨h2e, h2s⟩
    · exact Or.inl (h1e ▸ h2)
    · exact Or.inr ⟨h1e.trans h2e, pyStrLt_trans _ _ _ h2s h1s⟩

theorem tupleGt_total (p q : ℚ × PyStr) :
    p = q ∨ tupleGt p q = true ∨ tupleGt q p = true := by
  rcases lt_trichotomy p.1 q.1 with h | h | h
  · refine Or.inr (Or.inr ?_)
    unfold tupleGt
    simp [h]
  · rcases pyStrLt_total p.2 q.2 with hs | hs | hs
    · refine Or.inl ?_
      obtain ⟨p1, p2⟩ := p
      obtain ⟨q1, q2⟩ := q
      simp only [] at h hs
      rw [h, hs]
    · refine Or.inr (Or.inr ?_)
      unfold tupleGt
      simp [h, hs]
    · refine Or.inr (Or.inl ?_)
      unfold tupleGt
      simp [h, hs]
  · refine Or.inr (Or.inl ?_)
    unfold tupleGt
    simp [h]

theorem pyMax_mem : ∀ (l : List (ℚ × PyStr)) (cur : ℚ × PyStr), pyMax cur l ∈ cur :: l := by
  intro l
  induction l with
  | nil => intro cur; simp [pyMax]
  | cons x rest ih =>
    intro cur
    unfold pyMax
    by_cases hgt : tupleGt x cur = true
    · rw [if_pos hgt]
      exact List.mem_cons_of_mem cur (ih x)
    · rw [if_neg hgt]
      rcases List.mem_cons.mp (ih cur) with h | h
      · exact List.mem_cons.mpr (Or.inl h)
      · exact List.mem_cons.mpr (Or.inr (List.mem_cons_of_mem x h))

theorem pyMax_not_gt : ∀ (l : List (ℚ × PyStr)) (cur u : ℚ × PyStr), u ∈ cur :: l →
    ¬ tupleGt u (pyMax cur l) = true := by
  intro l
  induction l with
  | nil =>
    intro cur u hu
    rw [List.mem_singleton] at hu
    subst hu
    simp [pyMax, tupleGt_irrefl]
  | cons x rest ih =>
    intro cur u hu
    unfold pyMax
    by_cases hgt : tupleGt x cur = true
    · rw [if_pos hgt]
      rcases List.mem_cons.mp hu with hu | hu
      · subst hu
        intro hcon
        exact ih x x (by simp) (tupleGt_trans hgt hcon)
      · rcases List.mem_cons.mp hu with hu2 | hu2
        · subst hu2
          exact ih u u (by simp)
        · exact ih x u (by simp [hu2])
    · rw [if_neg hgt]
      rcases List.mem_cons.mp hu with hu | hu
      · subst hu
        exact ih u u (by simp)
      · rcases List.mem_cons.mp hu with hu2 | hu2
        · subst hu2
          rcases tupleGt_total u cur with he | hg | hg
          · subst he
            exact ih u u (by simp)
          · exact absurd hg hgt
          · intro hcon
            have hcurmem : cur ∈ cur :: rest := by simp
            exact ih cur cur hcurmem (tupleGt_trans hg hcon)
        · exact ih cur u (by simp [hu2])

/-! ## Characterization of `get_close_matches(word, ..., n=1, cutoff=0.6)` -/

theorem gcm1_none_iff (word : PyStr) (poss : List PyStr) :
    get_close_matches1 word poss = none ↔
      ∀ x ∈ poss, seqRatio x word < ratioCutoff := by
  unfold get_close_matches1
  cases hf : (poss.filter (gcmPasses word)).map (fun x => (seqRatio x word, x)) with
  | nil =>
    constructor
    · intro _ x hx
      by_contra hge
      push_neg at hge
      have hp : gcmPasses word x = true := (gcmPasses_iff word x).mpr hge
      have hmem : x ∈ poss.filter (gcmPasses word) := List.mem_filter.mpr ⟨hx, hp⟩
      have hmem2 : (seqRatio x word, x) ∈
          (poss.filter (gcmPasses word)).map (fun x => (seqRatio x word, x)) :=
        List.mem_map_of_mem _ hmem
      rw [hf] at hmem2
      simp at hmem2
    · intro _
      rfl
  | cons r rs =>
    constructor
    · intro h
      exact absurd h (by simp)
    · intro h
      exfalso
      have hr : r ∈ (poss.filter (gcmPasses word)).map (fun x => (seqRatio x word, x)) := by
        rw [hf]
        simp
      rw [List.mem_map] at hr
      obtain ⟨x, hx, _⟩ := hr
      have hxp := List.mem_filter.mp hx
      have hlt := h x hxp.1
      have hge := (gcmPasses_iff word x).mp hxp.2
      exact absurd hlt (not_lt.mpr hge)

theorem gcm1_some_iff (word : PyStr) (poss : List PyStr) (k : PyStr) :
    get_close_matches1 word poss = some k ↔
      k ∈ poss ∧ ratioCutoff ≤ seqRatio k word ∧
        ∀ x ∈ poss, ratioCutoff ≤ seqRatio x word →
          (seqRatio x word < seqRatio k word ∨
            (seqRatio x word = seqRatio k word ∧ (x = k ∨ pyStrLt x k = true))) := by
  unfold get_close_matches1
  cases hf : (poss.filter (gcmPasses word)).map (fun x => (seqRatio x word, x)) with
  | nil =>
    constructor
    · intro h
      exact absurd h (by simp)
    · rintro ⟨hk, hge, _⟩
      exfalso
      have hkc : k ∈ poss.filter (gcmPasses word) :=
        List.mem_filter.mpr ⟨hk, (gcmPasses_iff word k).mpr hge⟩
      have hmem2 : (seqRatio k word, k) ∈
          (poss.filter (gcmPasses word)).map (fun x => (seqRatio x word, x)) :=
        List.mem_map_of_mem _ hkc
      rw [hf] at hmem2
      simp at hmem2
  | cons r rs =>
    have hmem0 : pyMax r rs ∈ (poss.filter (gcmPasses word)).map
        (fun x => (seqRatio x word, x)) := by
      rw [hf]
      exact pyMax_mem rs r
    rw [List.mem_map] at hmem0
    obtain ⟨xm, hxm, hxe⟩ := hmem0
    have hm1 : (pyMax r rs).1 = seqRatio xm word := by rw [← hxe]
    have hm2 : (pyMax r rs).2 = xm := by rw [← hxe]
    have hmax : ∀ u ∈ (poss.filter (gcmPasses word)).map (fun x => (seqRatio x word, x)),
        ¬ tupleGt u (pyMax r rs) = true := by
      rw [hf]
      intro u hu
      exact pyMax_not_gt rs r u hu
    have hxm_in : xm ∈ poss := List.mem_of_mem_filter hxm
    have hxm_pass : ratioCutoff ≤ seqRatio xm word :=
      (gcmPasses_iff word xm).mp (List.of_mem_filter hxm)
    constructor
    · intro h
      have hk : (pyMax r rs).2 = k := Option.some.inj h
      rw [hm2] at hk
      subst hk
      refine ⟨hxm_in, hxm_pass, ?_⟩
      intro x hx hgex
      have hxc : x ∈ poss.filter (gcmPasses word) :=
        List.mem_filter.mpr ⟨hx, (gcmPasses_iff word x).mpr hgex⟩
      have hngt := hmax (seqRatio x word, x) (List.mem_map_of_mem _ hxc)
      unfold tupleGt at hngt
      simp only [Bool.or_eq_true, Bool.and_eq_true, decide_eq_true_eq, not_or, not_and] at hngt
      obtain ⟨hnlt, himp⟩ := hngt
      rw [hm1] at hnlt
      rcases lt_or_eq_of_le (not_lt.mp hnlt) with hlt | heq
    -- wait direction: hnlt : ¬ (pyMax).1 < seqRatio x word → seqRatio x ≤ (pyMax).1 = ratio xm
      · exact Or.inl hlt
      · refine Or.inr ⟨heq, ?_⟩
        have himp2 := himp
        rcases pyStrLt_total x xm with he | hl | hl
        · exact Or.inl he
        · exact Or.inr hl
        · exfalso
          apply himp2
          · rw [hm1]
            exact heq
          · rw [hm2]
            exact hl
    · rintro ⟨hk_in, hk_pass, hk_max⟩
      have hkc : k ∈ poss.filter (gcmPasses word) :=
        List.mem_filter.mpr ⟨hk_in, (gcmPasses_iff word k).mpr hk_pass⟩
      have hngt := hmax (seqRatio k word, k) (List.mem_map_of_mem _ hkc)
      unfold tupleGt at hngt
      simp only [Bool.or_eq_true, Bool.and_eq_true, decide_eq_true_eq, not_or, not_and] at hngt
      obtain ⟨hnlt, himp⟩ := hngt
      rw [hm1] at hnlt
      have h1 := hk_max xm hxm_in hxm_pass
      have hkeq : xm = k := by
        rcases h1 with h1 | ⟨h1e, h1or⟩
        · exact absurd h1 (not_lt.mpr (not_lt.mp hnlt))
        · rcases h1or with h | h
          · exact h
          · exfalso
            apply himp
            · rw [hm1]
              exact h1e.symm
            · rw [hm2]
              exact h
      show some (pyMax r rs).2 = some k
      rw [hm2, hkeq]

/-- Keys of the lower-cased category dictionary, in first-occurrence order. -/
def keysOf (cats : List PyStr) : List PyStr := (dictOfLower cats).map Prod.fst

theorem dictGet?_isSome {d : List (PyStr × PyStr)} {k : PyStr}
    (h : k ∈ d.map Prod.fst) : ∃ v, dictGet? d k = some v := by
  induction d with
  | nil => simp at h
  | cons p rest ih =>
    unfold dictGet?
    by_cases hk : p.1 = k
    · exact ⟨p.2, by rw [if_pos hk]⟩
    · rw [List.map_cons, List.mem_cons] at h
      rcases h with h | h
      · exact absurd h.symm hk
      · obtain ⟨v, hv⟩ := ih h
        exact ⟨v, by rw [if_neg hk]; exact hv⟩

/-- Modelled from the claim's words, not from the source: the best-scoring
candidate with ties broken by FIRST-encountered order (strictly greater
score replaces the running best). Used only to exhibit where the claim and
the code disagree. -/
def categoryMatcherClaimed (user_input : PyStr) (categories : List PyStr) : Option PyStr :=
  let ui := pyStrip (pyLower user_input)
  let pairs := dictOfLower categories
  match (pairs.map Prod.fst).filter (fun k => decide (ratioCutoff ≤ seqRatio k ui)) with
  | [] => none
  | k0 :: rest =>
    dictGet? pairs
      (rest.foldl (fun best k => if seqRatio best ui < seqRatio k ui then k else best) k0)

/-- C5 (amended): the Category Matcher compares case-insensitively by
`SequenceMatcher.ratio()` and returns the category whose lower-cased key
scores at least 0.6 and beats every other qualifying key, where a tie on
the score is broken in favour of the lexicographically GREATER key (Python
compares the `(score, candidate)` tuples, so among equal scores the larger
string wins — not the first-encountered candidate); it returns `none` when
no key reaches the threshold or the category list is empty, and
"grocery" against [Groceries, Rent, Shopping] returns "Groceries". -/
theorem c5_fuzzy_match :
    (∀ input : PyStr, fuzzy_match_category input [] = none) ∧
    (∀ (input : PyStr) (cats : List PyStr),
      (∀ k ∈ keysOf cats, seqRatio k (pyStrip (pyLower input)) < ratioCutoff) →
      fuzzy_match_category input cats = none) ∧
    (∀ (input : PyStr) (cats : List PyStr) (c : PyStr),
      fuzzy_match_category input cats = some c ↔
      ∃ k ∈ keysOf cats, ratioCutoff ≤ seqRatio k (pyStrip (pyLower input)) ∧
        (∀ x ∈ keysOf cats, ratioCutoff ≤ seqRatio x (pyStrip (pyLower input)) →
          (seqRatio x (pyStrip (pyLower input)) < seqRatio k (pyStrip (pyLower input)) ∨
            (seqRatio x (pyStrip (pyLower input)) = seqRatio k (pyStrip (pyLower input)) ∧
              (x = k ∨ pyStrLt x k = true)))) ∧
        dictGet? (dictOfLower cats) k = some c) ∧
    fuzzy_match_category "grocery".data ["Groceries".data, "Rent".data, "Shopping".data] =
      some "Groceries".data := by
  refine ⟨fun input => rfl, ?_, ?_, by decide⟩
  · intro input cats hlow
    show (match get_close_matches1 (pyStrip (pyLower input)) ((dictOfLower cats).map Prod.fst)
        with
      | none => none
      | some k => dictGet? (dictOfLower cats) k) = none
    rw [(gcm1_none_iff (pyStrip (pyLower input)) ((dictOfLower cats).map Prod.fst)).mpr hlow]
  · intro input cats c
    show (match get_close_matches1 (pyStrip (pyLower input)) ((dictOfLower cats).map Prod.fst)
        with
      | none => none
      | some k => dictGet? (dictOfLower cats) k) = some c ↔ _
    cases hg : get_close_matches1 (pyStrip (pyLower input)) ((dictOfLower cats).map Prod.fst)
      with
    | none =>
      simp only []
      constructor
      · intro h
        exact absurd h (by simp)
      · rintro ⟨k, hk, hge, _, _⟩
        exfalso
        rw [gcm1_none_iff] at hg
        exact absurd (hg k hk) (not_lt.mpr hge)
    | some k0 =>
      simp only []
      rw [gcm1_some_iff] at hg
      obtain ⟨hk0_in, hk0_pass, hk0_max⟩ := hg
      constructor
      · intro h
        exact ⟨k0, hk0_in, hk0_pass, hk0_max, h⟩
      · rintro ⟨k, hk_in, hk_pass, hk_max, hk_get⟩
        have hkeq : k = k0 := by
          have h1 := hk0_max k hk_in hk_pass
          have h2 := hk_max k0 hk0_in hk0_pass
          rcases h1 with h1 | ⟨h1e, h1or⟩
          · rcases h2 with h2 | ⟨h2e, _⟩
            · exact absurd (lt_trans h1 h2) (lt_irrefl _)
            · exact absurd h1 (not_lt.mpr (le_of_eq h2e))
          · rcases h1or with h | h
            · exact h
            · rcases h2 with h2 | ⟨h2e, h2or⟩
              · exact absurd h2 (not_lt.mpr (le_of_eq h1e))
              · rcases h2or with h2 | h2
                · exact h2.symm
                · exfalso
                  have := pyStrLt_trans k k0 k h h2
                  rw [pyStrLt_irrefl] at this
                  exact absurd this (by simp)
        rw [← hkeq]
        exact hk_get

/-- C5 witness: a concrete no-match instance via `c5_fuzzy_match` (the
scenario clause of the theorem itself is closed). -/
theorem c5_witness :
    (∀ k ∈ keysOf ["Rent".data], seqRatio k (pyStrip (pyLower "zzz".data)) < ratioCutoff) ∧
    fuzzy_match_category "zzz".data ["Rent".data] = none :=
  ⟨by decide, c5_fuzzy_match.2.1 "zzz".data ["Rent".data] (by decide)⟩

/-- C5 counterexample to the claim as stated: against [apple, apply] the
input "appl" ties both candidates at ratio 8/9, the code returns "apply"
(the lexicographically greater string wins the tuple comparison inside
`max`), while first-encountered order as claimed would return "apple". -/
theorem c5_counterexample :
    fuzzy_match_category "appl".data ["apple".data, "apply".data] = some "apply".data ∧
    categoryMatcherClaimed "appl".data ["apple".data, "apply".data] = some "apple".data ∧
    seqRatio "apple".data "appl".data = seqRatio "apply".data "appl".data ∧
    ("apply".data : PyStr) ≠ "apple".data := by decide

/-!
### Part C: the LangGraph orchestration layer

The nodes of `langgraph_app` pass around a Python dict state
(`ExpenseAgentState` in `graph.py`).  Python runtime values appearing in
that state (tool arguments, tool results, memory entries) are embedded as
the inductive `PyVal`; external effects (the LLM calls, `json.loads`,
`tool.invoke`, the pandas scan in `autofill_compare_months_args`) are
passed in as oracle function parameters returning `Except`
(`Except.error` models an exception escaping the call).
-/

/-- A Python runtime value: a string, an int, a list, a string-keyed dict,
`None`, or some other object (DataFrame handles and the like), identified
by an opaque tag.  Dicts are association lists in key-insertion order with
unique keys, matching Python dict iteration order. -/
inductive PyVal where
  | vstr : PyStr → PyVal
  | vint : Int → PyVal
  | vlist : List PyVal → PyVal
  | vdict : List (PyStr × PyVal) → PyVal
  | vnone : PyVal
  | vobj : Nat → PyVal

/-- A Python dict with string keys, in key-insertion order. -/
abbrev PyDict := List (PyStr × PyVal)

/-- Python truthiness (`bool(v)`): empty strings, zero, empty containers
and `None` are falsy; other objects (e.g. a DataFrame handle) are treated
as truthy. -/
def pyTruthy : PyVal → Bool
  | .vstr s => !s.isEmpty
  | .vint n => n != 0
  | .vlist l => !l.isEmpty
  | .vdict d => !d.isEmpty
  | .vnone => false
  | .vobj _ => true

/-- Membership test `k in d` on a dict. -/
def dictContainsV : PyDict → PyStr → Bool
  | [], _ => false
  | p :: rest, k => if p.1 = k then true else dictContainsV rest k

/-- Lookup `d.get(k)` on a dict (`none` when the key is absent). -/
def dictGetV : PyDict → PyStr → Option PyVal
  | [], _ => none
  | p :: rest, k => if p.1 = k then some p.2 else dictGetV rest k

/-- Assignment `d[k] = v`: replaces in place when the key exists (keeping
its position), appends otherwise. -/
def dictSetV : PyDict → PyStr → PyVal → PyDict
  | [], k, v => [(k, v)]
  | p :: rest, k, v => if p.1 = k then (k, v) :: rest else p :: dictSetV rest k v

/-- Deletion `del d[k]` (a no-op when the key is absent, used only behind
an `in` guard in the source). -/
def dictRemoveV : PyDict → PyStr → PyDict
  | [], _ => []
  | p :: rest, k => if p.1 = k then dictRemoveV rest k else p :: dictRemoveV rest k

/-- `d.setdefault(k, v)`: inserts `v` only when the key is absent. -/
def dictSetDefaultV (d : PyDict) (k : PyStr) (v : PyVal) : PyDict :=
  if dictContainsV d k then d else d ++ [(k, v)]

/-- Decimal rendering of an int (`str` on a Python int). -/
def intStr (n : Int) : PyStr :=
  if n < 0 then '-' :: natStr n.natAbs else natStr n.natAbs

mutual

/-- Rendering of a value by `str()` as used by f-string interpolation: a
string renders as itself, `None` as `"None"`; containers are rendered
structurally (a simplified printer for the cases the claims never inspect
beyond strings). -/
def strRender : PyVal → PyStr
  | .vstr s => s
  | .vint n => intStr n
  | .vnone => "None".data
  | .vobj n => "<object ".data ++ natStr n ++ ">".data
  | .vlist l => Char.ofNat 91 :: strRenderItems l ++ [Char.ofNat 93]
  | .vdict d => Char.ofNat 123 :: strRenderPairs d ++ [Char.ofNat 125]

/-- Comma-separated rendering of list elements. -/
def strRenderItems : List PyVal → PyStr
  | [] => []
  | [v] => strRender v
  | v :: rest => strRender v ++ ", ".data ++ strRenderItems rest

/-- Comma-separated rendering of dict entries. -/
def strRenderPairs : List (PyStr × PyVal) → PyStr
  | [] => []
  | [(k, v)] => k ++ ": ".data ++ strRender v
  | (k, v) :: rest => k ++ ": ".data ++ strRender v ++ ", ".data ++ strRenderPairs rest

end

/-- Python substring test `needle in hay`. -/
def strContains (needle : PyStr) : PyStr → Bool
  | [] => needle.isEmpty
  | c :: t => needle.isPrefixOf (c :: t) || strContains needle t

/-- Python `a or b` on strings: `b` when `a` is falsy (empty). -/
def pyOrStr (a b : PyStr) : PyStr := if a.isEmpty then b else a

/-- Truthiness of an optional string (`not x` in Python, negated): falsy
when the key is absent / the value is `None`, or the string is empty. -/
def optStrTruthy : Option PyStr → Bool
  | none => false
  | some s => !s.isEmpty

/-- The rendering of `x or y or 'None'` where `x` is `tool_name` and `y`
is `operation`, as interpolated into the unknown-tool message. -/
def orNoneStr (tool_name operation : Option PyStr) : PyStr :=
  pyOrStr (tool_name.getD []) (pyOrStr (operation.getD []) "None".data)

/-- An entry of the conversation memory list: every site that appends one
builds a dict with keys `query`, `tool_name`, `tool_args`, `answer`, and
(only in the DuckDB executor) `chart`. -/
structure MemEntry where
  query : PyStr
  tool_name : PyStr
  tool_args : PyDict
  answer : PyVal
  chart : Option PyVal := none

/-- The `tool_input` dict produced by the rewrite agent and consumed by
the executors and the memory node; `none` fields model absent keys (and
`tool_input.get(k)` returning `None`). -/
structure ToolInput where
  tool_name : Option PyStr := none
  operation : Option PyStr := none
  arguments : Option PyDict := none

/-- A step dict of an execution plan (`step.get("operation")`,
`step.get("arguments", {})`, `step.get("description", "")`). -/
structure PlanStep where
  step_number : Option Int := none
  description : Option PyStr := none
  operation : Option PyStr := none
  arguments : PyDict := []

instance : Inhabited PlanStep := ⟨{}⟩

/-- The dict returned by `execute_single_step`: `operation` and
`arguments` are present only on the success shape, embedded here with `[]`
defaults for the failure shape. -/
structure StepResult where
  success : Bool
  result : PyVal
  step_description : PyStr
  operation : PyStr := []
  arguments : PyDict := []

/-- The `execution_plan` dict built by `planner_node`. -/
structure ExecutionPlan where
  steps : List PlanStep
  synthesis_instruction : PyStr := []
  current_step : Nat := 0
  step_results : List StepResult := []

/-- The `ExpenseAgentState` TypedDict of `graph.py`; `Option` models both
an absent key and a `None` value (the code reads every field with
`state.get(...)`, which conflates the two). -/
structure AgentState where
  query : PyStr := []
  tool_input : Option ToolInput := none
  result : Option PyVal := none
  chart : Option PyVal := none
  invoked_tool : Option PyStr := none
  df : PyVal := .vnone
  memory : List MemEntry := []
  is_multi_step : Option Bool := none
  execution_plan : Option ExecutionPlan := none
  step_results : Option (List StepResult) := none

/-!
### retrieve_memory_node (`langgraph_app/nodes/retrieve_memory_node.py`)

The node scans `reversed(memory)` keeping the best similar past query
(`difflib.SequenceMatcher(None, query, past_query).ratio()`, embedded as
`seqRatio`), then copies `category`/`month` from the best entry's
arguments into the current arguments only for absent keys.  The float
comparisons `sim > 0.4` and `sim > highest_sim` are embedded as exact
rational comparisons. -/

/-- The scan `for past in reversed(memory): ...` of `retrieve_memory_node`
with accumulator `(best_match, highest_sim)`, starting from `(None, 0.0)`;
the argument list is already reversed. -/
def bestLoop (query : PyStr) : List MemEntry → Option PyDict × ℚ → Option PyDict × ℚ
  | [], acc => acc
  | past :: rest, acc =>
    let sim := seqRatio query (pyLower past.query)
    bestLoop query rest
      (if mkRat 2 5 < sim ∧ past.tool_name ≠ "summarize_memory_tool".data then
        (if acc.2 < sim then (some past.tool_args, sim) else acc)
      else acc)

/-- One iteration of the fill loop: `if key not in args and key in
best_match: args[key] = best_match[key]`. -/
def fillKey (args bargs : PyDict) (k : PyStr) : PyDict :=
  if !dictContainsV args k && dictContainsV bargs k then
    dictSetV args k ((dictGetV bargs k).getD .vnone)
  else args

/-- The fill loop `for key in ["category", "month"]`. -/
def fillMissing (args bargs : PyDict) : PyDict :=
  fillKey (fillKey args bargs "category".data) bargs "month".data

/-- The `if best_match:` guard and fill: the fill runs only when the loop
found an entry and the best entry's `tool_args` is a non-empty dict
(Python dict truthiness). -/
def applyBest (args : PyDict) : Option PyDict → PyDict
  | some bargs => if bargs.isEmpty then args else fillMissing args bargs
  | none => args

/-- `retrieve_memory_node(state)`: returns the state unchanged when
`tool_input` is falsy or lacks `arguments`/`tool_name`, or when both
`category` and `month` are already present; otherwise fills absent keys
from the best match. -/
def retrieve_memory_node (st : AgentState) : AgentState :=
  match st.tool_input with
  | none => st
  | some ti =>
    match ti.arguments, ti.tool_name with
    | some args, some _ =>
      if dictContainsV args "category".data && dictContainsV args "month".data then st
      else
        let args2 := applyBest args
          (bestLoop (pyLower st.query) st.memory.reverse (none, 0)).1
        { st with tool_input := some { ti with arguments := some args2 } }
    | _, _ => st

/-- The `arguments` dict reachable through `state["tool_input"]`. -/
def tiArgs (st : AgentState) : Option PyDict :=
  match st.tool_input with
  | some ti => ti.arguments
  | none => none

theorem dictGetV_setV_ne (d : PyDict) (k k' : PyStr) (v : PyVal) (h : k' ≠ k) :
    dictGetV (dictSetV d k v) k' = dictGetV d k' := by
  induction d with
  | nil =>
    show dictGetV [(k, v)] k' = dictGetV [] k'
    show (if k = k' then some v else dictGetV [] k') = dictGetV [] k'
    rw [if_neg (fun he => h he.symm)]
  | cons p rest ih =>
    show dictGetV (if p.1 = k then (k, v) :: rest else p :: dictSetV rest k v) k' =
      dictGetV (p :: rest) k'
    by_cases hp : p.1 = k
    · rw [if_pos hp]
      show (if k = k' then some v else dictGetV rest k') =
        (if p.1 = k' then some p.2 else dictGetV rest k')
      rw [if_neg (fun he => h he.symm), if_neg (fun he => h (hp ▸ he).symm)]
    · rw [if_neg hp]
      show (if p.1 = k' then some p.2 else dictGetV (dictSetV rest k v) k') =
        (if p.1 = k' then some p.2 else dictGetV rest k')
      by_cases hq : p.1 = k'
      · rw [if_pos hq, if_pos hq]
      · rw [if_neg hq, if_neg hq, ih]

theorem dictContainsV_setV (d : PyDict) (k k' : PyStr) (v : PyVal)
    (h : dictContainsV d k' = true) : dictContainsV (dictSetV d k v) k' = true := by
  induction d with
  | nil => cases h
  | cons p rest ih =>
    show dictContainsV (if p.1 = k then (k, v) :: rest else p :: dictSetV rest k v) k' = true
    have hh : (if p.1 = k' then true else dictContainsV rest k') = true := h
    by_cases hp : p.1 = k
    · rw [if_pos hp]
      show (if k = k' then true else dictContainsV rest k') = true
      by_cases hq : k = k'
      · rw [if_pos hq]
      · rw [if_neg hq]
        rw [if_neg (fun he => hq (hp.symm.trans he))] at hh
        exact hh
    · rw [if_neg hp]
      show (if p.1 = k' then true else dictContainsV (dictSetV rest k v) k') = true
      by_cases hq : p.1 = k'
      · rw [if_pos hq]
      · rw [if_neg hq]
        rw [if_neg hq] at hh
        exact ih hh

theorem fillKey_get_contains (args bargs : PyDict) (k k' : PyStr)
    (h : dictContainsV args k' = true) :
    dictGetV (fillKey args bargs k) k' = dictGetV args k' := by
  unfold fillKey
  by_cases hc : (!dictContainsV args k && dictContainsV bargs k) = true
  · rw [if_pos hc]
    apply dictGetV_setV_ne
    intro he
    have h1 := (Bool.and_eq_true _ _).mp hc |>.1
    rw [he] at h
    rw [h] at h1
    cases h1
  · rw [if_neg hc]

theorem fillKey_contains (args bargs : PyDict) (k k' : PyStr)
    (h : dictContainsV args k' = true) :
    dictContainsV (fillKey args bargs k) k' = true := by
  unfold fillKey
  by_cases hc : (!dictContainsV args k && dictContainsV bargs k) = true
  · rw [if_pos hc]
    exact dictContainsV_setV _ _ _ _ h
  · rw [if_neg hc]
    exact h

theorem fillKey_get_ne (args bargs : PyDict) (k k' : PyStr) (h : k' ≠ k) :
    dictGetV (fillKey args bargs k) k' = dictGetV args k' := by
  unfold fillKey
  by_cases hc : (!dictContainsV args k && dictContainsV bargs k) = true
  · rw [if_pos hc]
    exact dictGetV_setV_ne _ _ _ _ h
  · rw [if_neg hc]

theorem fillMissing_get_contains (args bargs : PyDict) (k' : PyStr)
    (h : dictContainsV args k' = true) :
    dictGetV (fillMissing args bargs) k' = dictGetV args k' := by
  unfold fillMissing
  rw [fillKey_get_contains _ _ _ _ (fillKey_contains _ _ _ _ h),
    fillKey_get_contains _ _ _ _ h]

theorem fillMissing_get_ne (args bargs : PyDict) (k' : PyStr)
    (h1 : k' ≠ "category".data) (h2 : k' ≠ "month".data) :
    dictGetV (fillMissing args bargs) k' = dictGetV args k' := by
  unfold fillMissing
  rw [fillKey_get_ne _ _ _ _ h2, fillKey_get_ne _ _ _ _ h1]

theorem bestLoop_none (q : PyStr) (mem : List MemEntry)
    (h : ∀ e ∈ mem, e.tool_name = "summarize_memory_tool".data ∨
      seqRatio q (pyLower e.query) ≤ mkRat 2 5) :
    bestLoop q mem (none, 0) = (none, 0) := by
  induction mem with
  | nil => rfl
  | cons past rest ih =>
    show bestLoop q rest
      (if mkRat 2 5 < seqRatio q (pyLower past.query) ∧
          past.tool_name ≠ "summarize_memory_tool".data then
        (if (0 : ℚ) < seqRatio q (pyLower past.query) then
          (some past.tool_args, seqRatio q (pyLower past.query)) else (none, 0))
      else (none, 0)) = (none, 0)
    have hcond : ¬ (mkRat 2 5 < seqRatio q (pyLower past.query) ∧
        past.tool_name ≠ "summarize_memory_tool".data) := by
      rcases h past (List.mem_cons_self _ _) with h1 | h1
      · exact fun hc => hc.2 h1
      · exact fun hc => absurd hc.1 (not_lt.mpr h1)
    rw [if_neg hcond]
    exact ih (fun e he => h e (List.mem_cons_of_mem _ he))

/-- C6: memory backfill never overwrites an explicitly supplied argument.
For every state whose `tool_input.arguments` already contains `category`,
the node returns arguments in which `category` — and every other
already-present key — is bound exactly as before, and keys outside
`category`/`month` are untouched entirely. -/
theorem c6_backfill_no_overwrite (st : AgentState) (ti : ToolInput) (args : PyDict)
    (hti : st.tool_input = some ti) (hargs : ti.arguments = some args)
    (hcat : dictContainsV args "category".data = true) :
    ∃ args2 : PyDict,
      tiArgs (retrieve_memory_node st) = some args2 ∧
      dictGetV args2 "category".data = dictGetV args "category".data ∧
      (∀ k, dictContainsV args k = true → dictGetV args2 k = dictGetV args k) ∧
      (∀ k, k ≠ "category".data → k ≠ "month".data →
        dictGetV args2 k = dictGetV args k) := by
  unfold retrieve_memory_node
  rw [hti]
  cases htn : ti.tool_name with
  | none =>
    simp only [hargs, htn]
    refine ⟨args, ?_, rfl, fun _ _ => rfl, fun _ _ _ => rfl⟩
    unfold tiArgs
    rw [hti]
    exact hargs
  | some tn =>
    simp only [hargs, htn]
    by_cases hb : (dictContainsV args "category".data &&
        dictContainsV args "month".data) = true
    · rw [if_pos hb]
      refine ⟨args, ?_, rfl, fun _ _ => rfl, fun _ _ _ => rfl⟩
      unfold tiArgs
      rw [hti]
      exact hargs
    · rw [if_neg hb]
      cases hbest : (bestLoop (pyLower st.query) st.memory.reverse (none, 0)).1 with
      | none =>
        exact ⟨args, rfl, rfl, fun _ _ => rfl, fun _ _ _ => rfl⟩
      | some bargs =>
        simp only [applyBest]
        by_cases hbe : bargs.isEmpty = true
        · rw [if_pos hbe]
          exact ⟨args, rfl, rfl, fun _ _ => rfl, fun _ _ _ => rfl⟩
        · rw [if_neg hbe]
          refine ⟨fillMissing args bargs, rfl, ?_, ?_, ?_⟩
          · exact fillMissing_get_contains _ _ _ hcat
          · exact fun k hk => fillMissing_get_contains _ _ _ hk
          · exact fun k h1 h2 => fillMissing_get_ne _ _ _ h1 h2

/-- C6 witness: a state whose arguments carry an explicit category, with a
similar past query in memory, keeps that category binding. -/
theorem c6_witness :
    ∃ args2 : PyDict,
      tiArgs (retrieve_memory_node
        { query := "groceries in may".data,
          tool_input := some
            { tool_name := some "sum_category_expenses_tool".data,
              arguments := some [("category".data, PyVal.vstr "Food".data)] },
          memory := [⟨"groceries in june".data, "monthly_expenses_tool".data,
            [("category".data, PyVal.vstr "Groceries".data),
             ("month".data, PyVal.vstr "2025-06".data)], PyVal.vnone, none⟩] }) = some args2 ∧
      dictGetV args2 "category".data =
        dictGetV [("category".data, PyVal.vstr "Food".data)] "category".data ∧
      (∀ k, dictContainsV [("category".data, PyVal.vstr "Food".data)] k = true →
        dictGetV args2 k = dictGetV [("category".data, PyVal.vstr "Food".data)] k) ∧
      (∀ k, k ≠ "category".data → k ≠ "month".data →
        dictGetV args2 k = dictGetV [("category".data, PyVal.vstr "Food".data)] k) :=
  c6_backfill_no_overwrite _ _ _ rfl rfl (by decide)

/-- C7: when every memory entry is either a memory-summarization entry or
has similarity at most 0.4 to the current query, the node returns the
state unchanged — gaps stay unfilled, and no error is produced. -/
theorem c7_backfill_threshold (st : AgentState)
    (hmem : ∀ e ∈ st.memory, e.tool_name = "summarize_memory_tool".data ∨
      seqRatio (pyLower st.query) (pyLower e.query) ≤ mkRat 2 5) :
    retrieve_memory_node st = st := by
  unfold retrieve_memory_node
  cases hti : st.tool_input with
  | none => rfl
  | some ti =>
    cases hargs : ti.arguments with
    | none => cases htn : ti.tool_name <;> simp only [hargs, htn]
    | some args =>
      cases htn : ti.tool_name with
      | none => simp only [hargs, htn]
      | some tn =>
        simp only [hargs, htn]
        by_cases hb : (dictContainsV args "category".data &&
            dictContainsV args "month".data) = true
        · rw [if_pos hb]
        · rw [if_neg hb]
          have hbl : (bestLoop (pyLower st.query) st.memory.reverse (none, 0)).1 = none := by
            rw [bestLoop_none _ _ (fun e he => hmem e (List.mem_reverse.mp he))]
          rw [hbl]
          have h2 : applyBest args none = args := rfl
          rw [h2]
          have h1 : (⟨some tn, ti.operation, some args⟩ : ToolInput) = ti := by
            rw [← hargs, ← htn]
          rw [h1, ← hti]

/-- C7 witness: a memory holding one summarization entry and one unrelated
query leaves a gapped intent untouched. -/
theorem c7_witness :
    retrieve_memory_node
      { query := "rent".data,
        tool_input := some
          { tool_name := some "top_expenses_tool".data,
            arguments := some [("n".data, PyVal.vint 3)] },
        memory := [⟨"old question".data, "summarize_memory_tool".data, [], PyVal.vnone, none⟩,
          ⟨"zzzz".data, "top_expenses_tool".data,
            [("month".data, PyVal.vstr "2025-01".data)], PyVal.vnone, none⟩] } =
      { query := "rent".data,
        tool_input := some
          { tool_name := some "top_expenses_tool".data,
            arguments := some [("n".data, PyVal.vint 3)] },
        memory := [⟨"old question".data, "summarize_memory_tool".data, [], PyVal.vnone, none⟩,
          ⟨"zzzz".data, "top_expenses_tool".data,
            [("month".data, PyVal.vstr "2025-01".data)], PyVal.vnone, none⟩] } :=
  c7_backfill_threshold _ (by
    intro e he
    rcases List.mem_cons.mp he with h | h
    · subst h
      exact Or.inl rfl
    · rcases List.mem_cons.mp h with h2 | h2
      · subst h2
        exact Or.inr (by decide)
      · cases h2)

/-!
### chain_executor_node (`langgraph_app/nodes/chain_executor_node.py`)

`execute_single_step` invokes a registry tool (LLM-planned operation,
pandas tool call, time resolution); the whole of it is the oracle `ex`.
The loop of `chain_executor_node` appends each step result and breaks
exactly when a step fails and its description contains `"required"`; the
synthesis LLM call is the oracle `lm`. -/

/-- The loop-break condition of `chain_executor_node`:
`not step_result["success"] and "required" in step.get("description", "").lower()`. -/
def fatalStep (ex : PlanStep → StepResult) (s : PlanStep) : Bool :=
  !(ex s).success && strContains "required".data (pyLower (s.description.getD []))

/-- The step loop of `chain_executor_node`: executes in order, appends
each result, and breaks after appending when the step is fatal. -/
def chainLoop (ex : PlanStep → StepResult) : List PlanStep → List StepResult
  | [] => []
  | s :: rest => if fatalStep ex s then [ex s] else ex s :: chainLoop ex rest

/-- The memory-update loop of `chain_executor_node`: one entry per
successful step result, in order. -/
def chainMemory (query : PyStr) : List StepResult → List MemEntry
  | [] => []
  | r :: rest =>
    if r.success then
      { query := query ++ " (Step: ".data ++ r.step_description ++ ")".data,
        tool_name := r.operation ++ "_tool".data,
        tool_args := r.arguments.filter
          (fun p => decide (p.1 ≠ "df".data ∧ p.1 ≠ "memory".data)),
        answer := r.result } :: chainMemory query rest
    else chainMemory query rest

/-- The `SYNTHESIS_SYSTEM_PROMPT` literal of `chain_executor_node.py`. -/
def SYNTHESIS_SYSTEM_PROMPT : PyStr :=
  "\nYou are an AI assistant that synthesizes results from multiple analysis steps into a coherent, comprehensive response.\n\nYou will receive:\n1. The original user query\n2. Multiple step results from expense analysis tools\n3. Instructions on how to synthesize the results\n\nCreate a comprehensive, well-formatted response that:\n- Answers the original question completely\n- Combines insights from all steps\n- Uses clear formatting with emojis and bullet points\n- Highlights key findings and trends\n- Provides actionable insights where possible\n\nKeep the response conversational but informative.\n".data

/-- The `results_text` accumulation of `synthesize_results`
(`enumerate(step_results, 1)`): one formatted block per step result, with
a `FAILED` marker on failures, each embedding the rendered result. -/
def resultsTextAux : Nat → List StepResult → PyStr
  | _, [] => []
  | i, r :: rest =>
    (if r.success then
      "\n**Step ".data ++ natStr i ++ " (".data ++ r.step_description ++ "):**\n".data ++
        strRender r.result ++ "\n".data
    else
      "\n**Step ".data ++ natStr i ++ " FAILED (".data ++ r.step_description ++ "):**\n".data ++
        strRender r.result ++ "\n".data) ++ resultsTextAux (i + 1) rest

/-- The synthesis prompt f-string of `synthesize_results`. -/
def synthPrompt (query results_text synthesis_instruction : PyStr) : PyStr :=
  "\n".data ++ SYNTHESIS_SYSTEM_PROMPT ++ "\n\nOriginal Query: ".data ++ query ++
    "\n\nStep Results:\n".data ++ results_text ++ "\n\nSynthesis Instructions: ".data ++
    synthesis_instruction ++ "\n\nPlease provide a comprehensive response:\n".data

/-- `synthesize_results(query, step_results, synthesis_instruction)`: the
LLM call (and the `response.content` extraction) is the oracle `lm`; on
success the stripped content is returned, and on an exception the
`except` branch returns the failure notice followed by the raw
`results_text` computed before the call. -/
def synthesize_results (lm : PyStr → Except String PyStr) (query : PyStr)
    (step_results : List StepResult) (synthesis_instruction : PyStr) : PyStr :=
  match lm (synthPrompt query (resultsTextAux 1 step_results) synthesis_instruction) with
  | .ok content => pyStrip content
  | .error e =>
    "❌ Failed to synthesize results: ".data ++ e.data ++ "\n\nRaw results:\n".data ++
      resultsTextAux 1 step_results

/-- `chain_executor_node(state)` with `execute_single_step` as the oracle
`ex` and the synthesis LLM as `lm`. -/
def chain_executor_node (ex : PlanStep → StepResult) (lm : PyStr → Except String PyStr)
    (st : AgentState) : AgentState :=
  match st.execution_plan with
  | none => { st with result := some (.vstr "❌ No execution plan available.".data) }
  | some plan =>
    if plan.steps.isEmpty then
      { st with result := some (.vstr "❌ No steps to execute.".data) }
    else
      let rs := chainLoop ex plan.steps
      let final : PyVal :=
        if 1 < plan.steps.length then
          .vstr (synthesize_results lm st.query rs plan.synthesis_instruction)
        else
          match rs with
          | r :: _ => if r.success then r.result else .vstr "❌ Step execution failed.".data
          | [] => .vstr "❌ Step execution failed.".data
      { st with
          result := some final,
          memory := st.memory ++ chainMemory st.query rs,
          step_results := some rs }

theorem chainLoop_take (ex : PlanStep → StepResult) :
    ∀ steps : List PlanStep,
      chainLoop ex steps = (steps.take (chainLoop ex steps).length).map ex := by
  intro steps
  induction steps with
  | nil => rfl
  | cons s rest ih =>
    by_cases hf : fatalStep ex s = true
    · simp only [chainLoop, hf, if_true]
      rfl
    · rw [Bool.not_eq_true] at hf
      simp only [chainLoop, hf, Bool.false_eq_true, if_false, List.length_cons,
        List.take_succ_cons, List.map_cons]
      rw [← ih]

theorem chainLoop_length_le (ex : PlanStep → StepResult) :
    ∀ steps : List PlanStep, (chainLoop ex steps).length ≤ steps.length := by
  intro steps
  induction steps with
  | nil => exact Nat.le_refl 0
  | cons s rest ih =>
    by_cases hf : fatalStep ex s = true
    · simp only [chainLoop, hf, if_true, List.length_cons, List.length_nil]
      omega
    · rw [Bool.not_eq_true] at hf
      simp only [chainLoop, hf, Bool.false_eq_true, if_false, List.length_cons]
      omega

theorem chainLoop_stop_fatal (ex : PlanStep → StepResult) :
    ∀ steps : List PlanStep, (chainLoop ex steps).length < steps.length →
      0 < (chainLoop ex steps).length ∧
      fatalStep ex (steps.getD ((chainLoop ex steps).length - 1) default) = true := by
  intro steps
  induction steps with
  | nil => intro h; simp [chainLoop] at h
  | cons s rest ih =>
    intro hlt
    by_cases hf : fatalStep ex s = true
    · simp only [chainLoop, hf, if_true]
      exact ⟨Nat.one_pos, hf⟩
    · rw [Bool.not_eq_true] at hf
      simp only [chainLoop, hf, Bool.false_eq_true, if_false, List.length_cons] at hlt ⊢
      have hlt2 : (chainLoop ex rest).length < rest.length := by omega
      obtain ⟨hpos, hfat⟩ := ih hlt2
      refine ⟨Nat.succ_pos _, ?_⟩
      obtain ⟨m, hm⟩ := Nat.exists_eq_succ_of_ne_zero (Nat.pos_iff_ne_zero.mp hpos)
      rw [hm]
      show fatalStep ex ((s :: rest).getD (m + 1 + 1 - 1) default) = true
      rw [show m + 1 + 1 - 1 = m + 1 from rfl, List.getD_cons_succ]
      rw [hm] at hfat
      simpa using hfat

theorem chainLoop_prefix_nonfatal (ex : PlanStep → StepResult) :
    ∀ (steps : List PlanStep) (i : Nat), i + 1 < (chainLoop ex steps).length →
      fatalStep ex (steps.getD i default) = false := by
  intro steps
  induction steps with
  | nil => intro i h; simp [chainLoop] at h
  | cons s rest ih =>
    intro i h
    by_cases hf : fatalStep ex s = true
    · simp only [chainLoop, hf, if_true, List.length_singleton] at h
      omega
    · rw [Bool.not_eq_true] at hf
      simp only [chainLoop, hf, Bool.false_eq_true, if_false, List.length_cons] at h
      cases i with
      | zero => exact hf
      | succ j =>
        rw [List.getD_cons_succ]
        exact ih j (by omega)

/-- C1: the chain orchestrator executes the plan's steps sequentially in
order (the collected results are the step executor mapped over a prefix of
the plan), and it stops early exactly when the last collected step is a
failing step whose description contains "required" — every earlier
collected step is non-fatal, so non-required failures do not stop the
loop.  For a 3-step plan whose first step is non-fatal and whose second is
a failing required step, exactly the first two results are collected.
The node stores the collected results and, for a multi-step plan, hands
all of them (failures included) to `synthesize_results`. -/
theorem c1_required_short_circuit :
    (∀ (ex : PlanStep → StepResult) (steps : List PlanStep),
      chainLoop ex steps = (steps.take (chainLoop ex steps).length).map ex ∧
      (chainLoop ex steps).length ≤ steps.length ∧
      ((chainLoop ex steps).length < steps.length →
        0 < (chainLoop ex steps).length ∧
        fatalStep ex (steps.getD ((chainLoop ex steps).length - 1) default) = true) ∧
      (∀ i, i + 1 < (chainLoop ex steps).length →
        fatalStep ex (steps.getD i default) = false)) ∧
    (∀ (ex : PlanStep → StepResult) (s1 s2 s3 : PlanStep),
      fatalStep ex s1 = false → fatalStep ex s2 = true →
      chainLoop ex [s1, s2, s3] = [ex s1, ex s2]) ∧
    (∀ (ex : PlanStep → StepResult) (lm : PyStr → Except String PyStr)
      (st : AgentState) (plan : ExecutionPlan),
      st.execution_plan = some plan → plan.steps.isEmpty = false →
      (chain_executor_node ex lm st).step_results = some (chainLoop ex plan.steps) ∧
      (1 < plan.steps.length →
        (chain_executor_node ex lm st).result =
          some (.vstr (synthesize_results lm st.query (chainLoop ex plan.steps)
            plan.synthesis_instruction)))) := by
  refine ⟨?_, ?_, ?_⟩
  · intro ex steps
    exact ⟨chainLoop_take ex steps, chainLoop_length_le ex steps,
      chainLoop_stop_fatal ex steps, chainLoop_prefix_nonfatal ex steps⟩
  · intro ex s1 s2 s3 h1 h2
    simp only [chainLoop, h1, h2, Bool.false_eq_true, if_false, if_true]
  · intro ex lm st plan hplan hne
    unfold chain_executor_node
    rw [hplan]
    simp only [hne, Bool.false_eq_true, if_false]
    constructor
    · trivial
    · intro hlen
      simp only [if_pos hlen]

/-- A concrete step executor for the C1 scenario: a step succeeds exactly
when its step number is 1. -/
def exW (s : PlanStep) : StepResult :=
  { success := decide (s.step_number = some 1), result := .vstr "ok".data,
    step_description := s.description.getD [],
    operation := "top_n_expenses".data, arguments := [] }

/-- A concrete numbered plan step for the C1 scenario. -/
def stepW (n : Int) (d : String) : PlanStep :=
  { step_number := some n, description := some d.data,
    operation := some "top_n_expenses".data, arguments := [] }

/-- C1 witness: a 3-step plan whose second step fails and is marked
required collects exactly the first two step results. -/
theorem c1_witness :
    fatalStep exW (stepW 1 "load the data") = false ∧
    fatalStep exW (stepW 2 "required comparison") = true ∧
    chainLoop exW [stepW 1 "load the data", stepW 2 "required comparison",
        stepW 3 "chart it"] =
      [exW (stepW 1 "load the data"), exW (stepW 2 "required comparison")] :=
  ⟨by decide, by decide,
    c1_required_short_circuit.2.1 exW _ _ _ (by decide) (by decide)⟩

theorem resultsTextAux_mem (r : StepResult) :
    ∀ (rs : List StepResult) (i : Nat), r ∈ rs →
      ∃ pre post : PyStr, resultsTextAux i rs = pre ++ strRender r.result ++ post := by
  intro rs
  induction rs with
  | nil => intro i h; cases h
  | cons r0 rest ih =>
    intro i h
    rcases List.mem_cons.mp h with he | ht
    · subst he
      cases hs : r.success with
      | true =>
        refine ⟨"\n**Step ".data ++ natStr i ++ " (".data ++ r.step_description ++
          "):**\n".data, "\n".data ++ resultsTextAux (i + 1) rest, ?_⟩
        simp [resultsTextAux, hs, List.append_assoc]
      | false =>
        refine ⟨"\n**Step ".data ++ natStr i ++ " FAILED (".data ++ r.step_description ++
          "):**\n".data, "\n".data ++ resultsTextAux (i + 1) rest, ?_⟩
        simp [resultsTextAux, hs, List.append_assoc]
    · obtain ⟨pre, post, hp⟩ := ih (i + 1) ht
      refine ⟨(if r0.success then
        "\n**Step ".data ++ natStr i ++ " (".data ++ r0.step_description ++ "):**\n".data ++
          strRender r0.result ++ "\n".data
      else
        "\n**Step ".data ++ natStr i ++ " FAILED (".data ++ r0.step_description ++
          "):**\n".data ++ strRender r0.result ++ "\n".data) ++ pre, post, ?_⟩
      simp only [resultsTextAux, hp, List.append_assoc]

/-- C8: when the synthesis LLM call raises, `synthesize_results` returns
the failure notice followed by the raw `results_text`, and every collected
step result's rendered text still occurs verbatim inside the returned
string — a synthesis failure never discards the computed step results. -/
theorem c8_synthesis_failure (lm : PyStr → Except String PyStr)
    (query synthesis_instruction : PyStr) (rs : List StepResult) (e : String)
    (hfail : lm (synthPrompt query (resultsTextAux 1 rs) synthesis_instruction) =
      .error e) :
    synthesize_results lm query rs synthesis_instruction =
      "❌ Failed to synthesize results: ".data ++ e.data ++ "\n\nRaw results:\n".data ++
        resultsTextAux 1 rs ∧
    ∀ r ∈ rs, ∃ pre post : PyStr,
      synthesize_results lm query rs synthesis_instruction =
        pre ++ strRender r.result ++ post := by
  have hmain : synthesize_results lm query rs synthesis_instruction =
      "❌ Failed to synthesize results: ".data ++ e.data ++ "\n\nRaw results:\n".data ++
        resultsTextAux 1 rs := by
    unfold synthesize_results
    rw [hfail]
  refine ⟨hmain, ?_⟩
  intro r hr
  obtain ⟨pre, post, hp⟩ := resultsTextAux_mem r rs 1 hr
  refine ⟨"❌ Failed to synthesize results: ".data ++ e.data ++ "\n\nRaw results:\n".data ++
    pre, post, ?_⟩
  rw [hmain, hp]
  simp [List.append_assoc]

/-- C8 witness: with an LLM oracle that always raises, a one-result list
comes back as the notice plus the raw results text, the step's rendered
result appearing inside. -/
theorem c8_witness :
    synthesize_results (fun _ => .error "LLM unavailable") "my query".data
      [⟨true, .vstr "total 42".data, "sum step".data, "sum_category_expenses".data, []⟩]
      "combine".data =
      "❌ Failed to synthesize results: ".data ++ "LLM unavailable".data ++
        "\n\nRaw results:\n".data ++
        resultsTextAux 1
          [⟨true, .vstr "total 42".data, "sum step".data, "sum_category_expenses".data, []⟩] ∧
    ∀ r ∈ [(⟨true, .vstr "total 42".data, "sum step".data,
        "sum_category_expenses".data, []⟩ : StepResult)],
      ∃ pre post : PyStr,
        synthesize_results (fun _ => .error "LLM unavailable") "my query".data
          [⟨true, .vstr "total 42".data, "sum step".data, "sum_category_expenses".data, []⟩]
          "combine".data = pre ++ strRender r.result ++ post :=
  c8_synthesis_failure _ _ _ _ _ rfl

/-!
### planner_node, route_execution and the single-step path

`planner_node` builds an execution plan from the LLM response; the LLM
call, code-fence stripping and `json.loads` are one oracle `parse`
returning the parsed plan dict (`PlanJson`) or the exception.
`route_execution` (`graph.py`) then routes to `chain_executor` or to the
single-step path `rewrite_query → retrieve_memory → execute_tool`
(the DuckDB executor). -/

/-- The parsed planner response: `plan.get("is_multi_step", False)`,
`plan.get("steps", [])`, `plan.get("synthesis_instruction", "")`. -/
structure PlanJson where
  is_multi_step : Bool := false
  steps : List PlanStep := []
  synthesis_instruction : PyStr := []

/-- `planner_node(state)` with the LLM+parse oracle. -/
def planner_node (parse : Except String PlanJson) (st : AgentState) : AgentState :=
  if st.query.isEmpty then
    { st with
        is_multi_step := some false, execution_plan := none,
        result := some (.vstr "❌ Missing query input.".data) }
  else
    match parse with
    | .error e =>
      { st with
          is_multi_step := some false, execution_plan := none,
          result := some (.vstr ("❌ Planning failed: ".data ++ e.data)) }
    | .ok plan =>
      if plan.steps.isEmpty then
        { st with
            is_multi_step := some false, execution_plan := none,
            result := some (.vstr "❌ No execution steps generated.".data) }
      else
        { st with
            is_multi_step := some plan.is_multi_step,
            execution_plan := some ⟨plan.steps, plan.synthesis_instruction, 0, []⟩ }

/-- `route_execution(state)` from `graph.py`: single-step path when the
plan is `None`, multi-step only when `is_multi_step` is truthy. -/
def route_execution (st : AgentState) : String :=
  match st.execution_plan with
  | none => "rewrite_query"
  | some _ => if st.is_multi_step.getD false then "chain_executor" else "rewrite_query"

/-- The parsed rewrite-LLM response (`json.loads(content.strip())`):
`operation = parsed.get("operation")` and the remaining items
(`{k: v for k, v in parsed.items() if k != "operation"}`). -/
structure RwParsed where
  operation : Option PyVal := none
  arguments : PyDict := []

/-- The `OPERATION_TO_TOOL` routing map of `rewrite_agent_node.py`. -/
def REWRITE_OPERATION_TO_TOOL : List (PyStr × PyStr) :=
  [("top_n_expenses".data, "top_expenses_tool".data),
   ("list_month_expenses".data, "monthly_expenses_tool".data),
   ("sum_category_expenses".data, "sum_category_expenses_tool".data),
   ("date_range_expense".data, "date_range_expense_tool".data),
   ("summarize_memory".data, "summarize_memory_tool".data),
   ("compare_months".data, "compare_months_tool".data),
   ("compare_category".data, "compare_category_tool".data),
   ("average_category_expense".data, "average_category_expense_tool".data),
   ("category_summary".data, "category_summary_tool".data)]

/-- The `time_keys` selection of `rewrite_agent_node` (and, identically,
of `execute_single_step`). -/
def timeKeysFor (operation : PyStr) : List PyStr :=
  if operation = "list_month_expenses".data then ["month".data]
  else if operation = "compare_category".data ∨ operation = "average_category_expense".data ∨
      operation = "category_summary".data then ["months".data]
  else if operation = "compare_months".data then ["month1".data, "month2".data]
  else []

/-- Truthiness of a resolved time value (`if resolved:`). -/
def timeValTruthy : TimeVal → Bool
  | .str s => !s.isEmpty
  | .list l => !l.isEmpty

/-- A resolved time value as a Python value. -/
def timeValPy : TimeVal → PyVal
  | .str s => .vstr s
  | .list l => .vlist (l.map .vstr)

/-- `resolve_time_period` applied to an arbitrary runtime value:
`value.lower()` raises `AttributeError` on non-strings. -/
def resolvePyVal (today : PyDate) : PyVal → Except String TimeVal
  | .vstr s => resolve_time_period today s
  | _ => .error "AttributeError: object has no attribute lower"

/-- The inner loop over a list-valued time argument: each element is
resolved, falsy results are skipped, list results are flattened
(`extend`) and string results appended. -/
def resolveListLoop (today : PyDate) : List PyVal → Except String (List PyVal)
  | [] => .ok []
  | v :: rest =>
    match resolvePyVal today v with
    | .error e => .error e
    | .ok tv =>
      match resolveListLoop today rest with
      | .error e => .error e
      | .ok tl =>
        .ok ((if timeValTruthy tv then
          match tv with
          | .str s => [PyVal.vstr s]
          | .list l => l.map PyVal.vstr
        else []) ++ tl)

/-- One iteration of the time-normalization loop (`for key in time_keys`):
present truthy list values are resolved elementwise, present truthy
scalars are resolved and replaced only when the resolution is truthy. -/
def normalizeKey (today : PyDate) (args : PyDict) (k : PyStr) : Except String PyDict :=
  if dictContainsV args k && pyTruthy ((dictGetV args k).getD .vnone) then
    match (dictGetV args k).getD .vnone with
    | .vlist l =>
      match resolveListLoop today l with
      | .error e => .error e
      | .ok rl => .ok (dictSetV args k (.vlist rl))
    | v =>
      match resolvePyVal today v with
      | .error e => .error e
      | .ok tv => .ok (if timeValTruthy tv then dictSetV args k (timeValPy tv) else args)
  else .ok args

/-- The time-normalization loop over all time keys, stopping at the first
escaping exception. -/
def normalizeKeys (today : PyDate) : List PyStr → PyDict → Except String PyDict
  | [], args => .ok args
  | k :: rest, args =>
    match normalizeKey today args k with
    | .error e => .error e
    | .ok args2 => normalizeKeys today rest args2

/-- Rendering of `f"...: {operation}"` for the unknown-operation message. -/
def opRender : Option PyVal → PyStr
  | none => "None".data
  | some v => strRender v

/-- The guard `if not operation or operation not in OPERATION_TO_TOOL`:
returns the operation string and its tool name when the guard passes. -/
def rwResolveOp : Option PyVal → Option (PyStr × PyStr)
  | none => none
  | some v =>
    if pyTruthy v then
      match v with
      | .vstr op =>
        match dictGet? REWRITE_OPERATION_TO_TOOL op with
        | some t => some (op, t)
        | none => none
      | _ => none
    else none

/-- `rewrite_agent_node(state)`: the LLM call and `json.loads` are the
oracle `parse`; everything in the `try` block after parsing (including
`resolve_time_period`, whose exceptions reach the same `except`) is
embedded explicitly. -/
def rewrite_agent_node (today : PyDate) (parse : Except String RwParsed)
    (st : AgentState) : AgentState :=
  if st.query.isEmpty then
    { st with
        result := some (.vstr "❌ Missing query input.".data),
        tool_input := none, invoked_tool := some "None".data }
  else
    match parse with
    | .error e =>
      { st with
          result := some (.vstr ("❌ Failed to parse tool input: ".data ++ e.data)),
          tool_input := none, invoked_tool := some "None".data }
    | .ok parsed =>
      match rwResolveOp parsed.operation with
      | none =>
        { st with
            result := some (.vstr ("❌ Unknown or missing operation: ".data ++
              opRender parsed.operation)),
            tool_input := none, invoked_tool := some "None".data }
      | some ot =>
        match normalizeKeys today (timeKeysFor ot.1) parsed.arguments with
        | .error e =>
          { st with
              result := some (.vstr ("❌ Failed to parse tool input: ".data ++ e.data)),
              tool_input := none, invoked_tool := some "None".data }
        | .ok args2 =>
          { st with
              tool_input := some ⟨some ot.2, none, some args2⟩,
              invoked_tool := some ot.2 }

/-- A memory entry as the Python value injected into
`arguments["memory"]`. -/
def memEntryPy (e : MemEntry) : PyVal :=
  .vdict ([("query".data, .vstr e.query), ("tool_name".data, .vstr e.tool_name),
    ("tool_args".data, .vdict e.tool_args), ("answer".data, e.answer)] ++
    (match e.chart with
     | some c => [("chart".data, c)]
     | none => []))

/-- The memory list as a Python value. -/
def memoryPy (mem : List MemEntry) : PyVal := .vlist (mem.map memEntryPy)

/-- The keys of `DUCKDB_TOOL_REGISTRY` in `duckdb_tool_executor_node.py`. -/
def DUCKDB_TOOL_REGISTRY_KEYS : List PyStr :=
  ["sum_category_expenses_tool".data, "top_expenses_tool".data,
   "category_summary_tool".data, "monthly_expenses_tool".data,
   "query_tool".data, "fallback_tool".data, "legacy_monthly_expenses_tool".data,
   "date_range_expense_tool".data, "summarize_memory_tool".data,
   "compare_months_tool".data, "compare_category_tool".data,
   "average_category_expense_tool".data]

/-- The `OPERATION_TO_TOOL` map of `duckdb_tool_executor_node.py`. -/
def DUCKDB_OPERATION_TO_TOOL : List (PyStr × PyStr) :=
  [("sum_category_expenses".data, "sum_category_expenses_tool".data),
   ("top_expenses".data, "top_expenses_tool".data),
   ("category_summary".data, "category_summary_tool".data),
   ("list_month_expenses".data, "monthly_expenses_tool".data),
   ("monthly_expenses".data, "monthly_expenses_tool".data),
   ("compare_months".data, "compare_months_tool".data),
   ("legacy_monthly_expenses".data, "legacy_monthly_expenses_tool".data),
   ("summarize_memory".data, "summarize_memory_tool".data),
   ("query".data, "query_tool".data),
   ("fallback".data, "fallback_tool".data),
   ("date_range_expense".data, "date_range_expense_tool".data),
   ("compare_category".data, "compare_category_tool".data),
   ("average_category_expense".data, "average_category_expense_tool".data)]

/-- The literal `duckdb_tools` list inside the executor. -/
def duckdb_tools_list : List PyStr :=
  ["sum_category_expenses_tool".data, "top_expenses_tool".data,
   "category_summary_tool".data, "monthly_expenses_tool".data]

/-- Membership `x in l` for a possibly-`None` string. -/
def optMem (o : Option PyStr) (l : List PyStr) : Bool :=
  match o with
  | some s => decide (s ∈ l)
  | none => false

/-- Truthiness of a `tool_input` dict holding at most the three modeled
keys (`not tool_input` — `None` or the empty dict). -/
def tiFalsy (ti : ToolInput) : Bool :=
  ti.tool_name.isNone && ti.operation.isNone && ti.arguments.isNone

/-- The `tool_name` after the operation fallback
(`if not tool_name and operation: tool_name = OPERATION_TO_TOOL.get(operation)`)
in the DuckDB executor. -/
def duckdbResolvedTool (ti : ToolInput) : Option PyStr :=
  if !optStrTruthy ti.tool_name && optStrTruthy ti.operation then
    dictGet? DUCKDB_OPERATION_TO_TOOL (ti.operation.getD [])
  else ti.tool_name

/-- The argument dict after the DuckDB executor's injections: DuckDB tools
get `table_name = "expenses"` and lose `df`, other tools (except the
memory summarizer) get `df`, and the memory summarizer gets `memory` and
`df`. -/
def duckdbArgs (st : AgentState) (ti : ToolInput) : PyDict :=
  let tool_name := duckdbResolvedTool ti
  let args0 := ti.arguments.getD []
  let args1 :=
    if optMem tool_name duckdb_tools_list then
      dictRemoveV (dictSetV args0 "table_name".data (.vstr "expenses".data)) "df".data
    else if tool_name = some "summarize_memory_tool".data then args0
    else dictSetV args0 "df".data st.df
  if tool_name = some "summarize_memory_tool".data then
    dictSetV (dictSetV args1 "memory".data (memoryPy st.memory)) "df".data st.df
  else args1

/-- `duckdb_tool_executor_node(state)` with `tool.invoke` as the oracle
`invoke`.  Every branch sets `result`. -/
def duckdb_tool_executor_node (invoke : PyStr → PyDict → Except String PyVal)
    (st : AgentState) : AgentState :=
  match st.tool_input with
  | none =>
    { st with
        result := some (.vstr "❌ Missing tool_input".data),
        invoked_tool := some "None".data }
  | some ti =>
    if tiFalsy ti then
      { st with
          result := some (.vstr "❌ Missing tool_input".data),
          invoked_tool := some "None".data }
    else if optStrTruthy (duckdbResolvedTool ti) &&
        optMem (duckdbResolvedTool ti) DUCKDB_TOOL_REGISTRY_KEYS then
      match invoke ((duckdbResolvedTool ti).getD []) (duckdbArgs st ti) with
      | .ok res =>
        let text_result : PyVal :=
          match res with
          | .vdict d => (dictGetV d "text".data).getD (.vstr (strRender res))
          | _ => .vstr (strRender res)
        let chart_result : PyVal :=
          match res with
          | .vdict d => (dictGetV d "chart".data).getD .vnone
          | _ => .vnone
        { st with
            result := some text_result,
            chart := some chart_result,
            invoked_tool := some ((duckdbResolvedTool ti).getD []),
            memory := st.memory ++ [⟨st.query, (duckdbResolvedTool ti).getD [],
              (duckdbArgs st ti).filter (fun p =>
                decide (p.1 ≠ "df".data ∧ p.1 ≠ "memory".data ∧ p.1 ≠ "table_name".data)),
              text_result, some chart_result⟩] }
      | .error e =>
        { st with
            result := some (.vstr ("❌ Tool execution failed: ".data ++ e.data)),
            invoked_tool := some ((duckdbResolvedTool ti).getD []) }
    else
      { st with
          result := some (.vstr ("❌ Unknown or missing tool: `".data ++
            orNoneStr (duckdbResolvedTool ti) ti.operation ++ "`".data)),
          invoked_tool := some (pyOrStr ((duckdbResolvedTool ti).getD []) "None".data) }

theorem duckdb_sets_result (invoke : PyStr → PyDict → Except String PyVal)
    (st : AgentState) :
    ∃ r, (duckdb_tool_executor_node invoke st).result = some r := by
  unfold duckdb_tool_executor_node
  cases st.tool_input with
  | none => exact ⟨_, rfl⟩
  | some ti =>
    by_cases hf : tiFalsy ti = true
    · simp only [hf, if_true]
      exact ⟨_, rfl⟩
    · rw [Bool.not_eq_true] at hf
      simp only [hf, Bool.false_eq_true, if_false]
      by_cases hg : (optStrTruthy (duckdbResolvedTool ti) &&
          optMem (duckdbResolvedTool ti) DUCKDB_TOOL_REGISTRY_KEYS) = true
      · simp only [hg, if_true]
        cases invoke ((duckdbResolvedTool ti).getD []) (duckdbArgs st ti) with
        | ok res => exact ⟨_, rfl⟩
        | error e => exact ⟨_, rfl⟩
      · rw [Bool.not_eq_true] at hg
        simp only [hg, Bool.false_eq_true, if_false]
        exact ⟨_, rfl⟩

/-- C2: a planning failure is recoverable.  If the planner oracle raises
(parse failure) the node stores no execution plan, marks the state
single-step and `route_execution` sends it to `rewrite_query`; the same
holds when the response parses to zero steps; and the single-step path
`rewrite_query → retrieve_memory → execute_tool` is total — whatever the
oracles do, the final state always carries a result (every branch of the
DuckDB executor, including all its error branches, sets one). -/
theorem c2_plan_failure_fallback :
    (∀ (parse : Except String PlanJson) (st : AgentState) (e : String),
      st.query ≠ [] → parse = .error e →
      (planner_node parse st).execution_plan = none ∧
      (planner_node parse st).is_multi_step = some false ∧
      route_execution (planner_node parse st) = "rewrite_query") ∧
    (∀ (parse : Except String PlanJson) (st : AgentState) (pj : PlanJson),
      parse = .ok pj → pj.steps = [] →
      (planner_node parse st).execution_plan = none ∧
      route_execution (planner_node parse st) = "rewrite_query") ∧
    (∀ (today : PyDate) (rp : Except String RwParsed)
      (invoke : PyStr → PyDict → Except String PyVal) (st : AgentState),
      ∃ r, (duckdb_tool_executor_node invoke
        (retrieve_memory_node (rewrite_agent_node today rp st))).result = some r) := by
  refine ⟨?_, ?_, ?_⟩
  · intro parse st e hq hp
    subst hp
    unfold planner_node
    have hqe : st.query.isEmpty = false := by
      cases hql : st.query with
      | nil => exact absurd hql hq
      | cons c t => rfl
    simp only [hqe, Bool.false_eq_true, if_false]
    refine ⟨?_, ?_, ?_⟩ <;> first | rfl | trivial
  · intro parse st pj hp hsteps
    subst hp
    unfold planner_node
    by_cases hq : st.query.isEmpty = true
    · simp only [hq, if_true]
      refine ⟨?_, ?_⟩ <;> first | rfl | trivial
    · rw [Bool.not_eq_true] at hq
      simp only [hq, Bool.false_eq_true, if_false]
      have hie : pj.steps.isEmpty = true := by
        rw [hsteps]
        rfl
      simp only [hie, if_true]
      refine ⟨?_, ?_⟩ <;> first | rfl | trivial
  · intro today rp invoke st
    exact duckdb_sets_result invoke _

/-- C2 witness: a parse failure on a non-empty query yields no plan and
routes to the single-step path. -/
theorem c2_witness :
    (planner_node (.error "bad json") { query := "compare stuff".data }).execution_plan =
      none ∧
    (planner_node (.error "bad json") { query := "compare stuff".data }).is_multi_step =
      some false ∧
    route_execution (planner_node (.error "bad json") { query := "compare stuff".data }) =
      "rewrite_query" :=
  c2_plan_failure_fallback.1 (.error "bad json") { query := "compare stuff".data }
    "bad json" (by decide) rfl

/-!
### tool_executor_node (`langgraph_app/nodes/tool_executor_node.py`)

The legacy single-step executor: resolves the tool name from
`OPERATION_TO_TOOL` when missing, injects `df`/`memory`, autofills
`compare_months` arguments from the DataFrame's two most recent months
(the pandas scan is the oracle `recent`: `none` models an invalid
DataFrame or a missing `Date` column), invokes the tool (`invoke`
oracle), and appends one memory entry only after a successful
invocation. -/

/-- The keys of `TOOL_REGISTRY` in `tool_executor_node.py`. -/
def EXEC_TOOL_REGISTRY_KEYS : List PyStr :=
  ["query_tool".data, "fallback_tool".data, "top_expenses_tool".data,
   "monthly_expenses_tool".data, "sum_category_expenses_tool".data,
   "date_range_expense_tool".data, "summarize_memory_tool".data,
   "compare_months_tool".data, "compare_category_tool".data,
   "average_category_expense_tool".data, "category_summary_tool".data]

/-- The `OPERATION_TO_TOOL` map of `tool_executor_node.py`. -/
def EXEC_OPERATION_TO_TOOL : List (PyStr × PyStr) :=
  [("compare_months".data, "compare_months_tool".data),
   ("sum_category_expenses".data, "sum_category_expenses_tool".data),
   ("monthly_expenses".data, "monthly_expenses_tool".data),
   ("top_expenses".data, "top_expenses_tool".data),
   ("summarize_memory".data, "summarize_memory_tool".data),
   ("query".data, "query_tool".data),
   ("fallback".data, "fallback_tool".data),
   ("date_range_expense".data, "date_range_expense_tool".data),
   ("compare_category".data, "compare_category_tool".data),
   ("average_category_expense".data, "average_category_expense_tool".data),
   ("category_summary".data, "category_summary_tool".data)]

/-- `autofill_compare_months_args(arguments)` from
`expense_manager/utils/autofill_helpers.py`: the pandas extraction of the
distinct months of the `Date` column, most recent first, is the oracle
`recent` (`none` when `df` is not a DataFrame or has no `Date` column —
the function then returns the arguments unchanged). -/
def autofill_compare_months_args (recent : Option (List PyStr))
    (arguments : PyDict) : PyDict :=
  match recent with
  | none => arguments
  | some recent_months =>
    if dictContainsV arguments "month1".data && dictContainsV arguments "month2".data then
      arguments
    else if 2 ≤ recent_months.length then
      dictSetDefaultV (dictSetDefaultV arguments "month1".data
        (.vstr (recent_months.getD 1 []))) "month2".data (.vstr (recent_months.getD 0 []))
    else arguments

/-- The `tool_name` after the operation fallback in the legacy executor
(`if not tool_name and operation: tool_name = OPERATION_TO_TOOL.get(operation)`). -/
def execToolResolved (ti : ToolInput) : Option PyStr :=
  if !optStrTruthy ti.tool_name && optStrTruthy ti.operation then
    dictGet? EXEC_OPERATION_TO_TOOL (ti.operation.getD [])
  else ti.tool_name

/-- The argument dict after the legacy executor's injections, in source
order: `df` (unless the memory summarizer), then the `compare_months`
autofill, then `memory` and `df` for the memory summarizer. -/
def execToolArgs (recent : Option (List PyStr)) (st : AgentState)
    (ti : ToolInput) : PyDict :=
  let tool_name := execToolResolved ti
  let args0 := ti.arguments.getD []
  let args1 :=
    if tool_name = some "summarize_memory_tool".data then args0
    else dictSetV args0 "df".data st.df
  let args2 :=
    if ti.operation = some "compare_months".data ∨
        tool_name = some "compare_months_tool".data then
      autofill_compare_months_args recent args1
    else args1
  if tool_name = some "summarize_memory_tool".data then
    dictSetV (dictSetV args2 "memory".data (memoryPy st.memory)) "df".data st.df
  else args2

/-- `result.get("text", result) if isinstance(result, dict) else result`. -/
def execTextResult : PyVal → PyVal
  | .vdict d => (dictGetV d "text".data).getD (.vdict d)
  | v => v

/-- `tool_executor_node(state)` with `tool.invoke` as the oracle `invoke`
and the autofill DataFrame scan as the oracle `recent`. -/
def tool_executor_node (invoke : PyStr → PyDict → Except String PyVal)
    (recent : Option (List PyStr)) (st : AgentState) : AgentState :=
  match st.tool_input with
  | none =>
    { st with
        result := some (.vstr "❌ Missing tool_input".data),
        invoked_tool := some "None".data }
  | some ti =>
    if tiFalsy ti then
      { st with
          result := some (.vstr "❌ Missing tool_input".data),
          invoked_tool := some "None".data }
    else if optStrTruthy (execToolResolved ti) &&
        optMem (execToolResolved ti) EXEC_TOOL_REGISTRY_KEYS then
      match invoke ((execToolResolved ti).getD []) (execToolArgs recent st ti) with
      | .ok res =>
        { st with
            result := some (execTextResult res),
            invoked_tool := some ((execToolResolved ti).getD []),
            memory := st.memory ++ [⟨st.query, (execToolResolved ti).getD [],
              (execToolArgs recent st ti).filter (fun p =>
                decide (p.1 ≠ "df".data ∧ p.1 ≠ "memory".data)),
              execTextResult res, none⟩] }
      | .error e =>
        { st with
            result := some (.vstr ("❌ Tool execution failed: ".data ++ e.data)),
            invoked_tool := some ((execToolResolved ti).getD []) }
    else
      { st with
          result := some (.vstr ("❌ Unknown or missing tool: `".data ++
            orNoneStr (execToolResolved ti) ti.operation ++ "`".data)),
          invoked_tool := some (pyOrStr ((execToolResolved ti).getD []) "None".data) }

theorem optStrTruthy_some {o : Option PyStr} (h : optStrTruthy o = true) :
    ∃ s, o = some s ∧ s.isEmpty = false := by
  cases o with
  | none => cases h
  | some s =>
    refine ⟨s, rfl, ?_⟩
    have hh : (!s.isEmpty) = true := h
    simpa using hh

theorem tiFalsy_resolved {ti : ToolInput} (h : tiFalsy ti = true) :
    execToolResolved ti = none := by
  have hh := h
  unfold tiFalsy at hh
  rcases (Bool.and_eq_true _ _).mp hh with ⟨h12, _⟩
  rcases (Bool.and_eq_true _ _).mp h12 with ⟨h1, h2⟩
  have htn : ti.tool_name = none := Option.isNone_iff_eq_none.mp h1
  have hop : ti.operation = none := Option.isNone_iff_eq_none.mp h2
  unfold execToolResolved
  rw [htn, hop]
  rfl

/-- C10: the legacy single-step executor appends at most one entry to the
conversation memory, and it appends exactly one entry if and only if the
tool input is present, resolves to a truthy registry tool name, and the
invocation returns without an exception; in every error branch (missing
or falsy `tool_input`, unknown or unresolvable tool, tool exception) the
returned memory is the input memory. -/
theorem c10_memory_append (invoke : PyStr → PyDict → Except String PyVal)
    (recent : Option (List PyStr)) (st : AgentState) :
    ((tool_executor_node invoke recent st).memory = st.memory ∨
      ∃ e, (tool_executor_node invoke recent st).memory = st.memory ++ [e]) ∧
    ((∃ e, (tool_executor_node invoke recent st).memory = st.memory ++ [e]) ↔
      ∃ ti tn, st.tool_input = some ti ∧ execToolResolved ti = some tn ∧
        tn.isEmpty = false ∧ tn ∈ EXEC_TOOL_REGISTRY_KEYS ∧
        (invoke tn (execToolArgs recent st ti)).isOk = true) := by
  unfold tool_executor_node
  cases hti : st.tool_input with
  | none =>
    refine ⟨Or.inl rfl, ⟨?_, ?_⟩⟩
    · rintro ⟨e, he⟩
      have he2 : st.memory = st.memory ++ [e] := he
      have := congrArg List.length he2
      simp at this
    · rintro ⟨ti, tn, hsome, _⟩
      exact Option.noConfusion hsome
  | some ti =>
    by_cases hf : tiFalsy ti = true
    · simp only [hf, if_true]
      refine ⟨Or.inl trivial, ⟨?_, ?_⟩⟩
      · rintro ⟨e, he⟩
        have he2 : st.memory = st.memory ++ [e] := he
        have := congrArg List.length he2
        simp at this
      · rintro ⟨ti2, tn, hsome, hres2, _⟩
        injection hsome with hti2
        subst hti2
        rw [tiFalsy_resolved hf] at hres2
        exact Option.noConfusion hres2
    · rw [Bool.not_eq_true] at hf
      simp only [hf, Bool.false_eq_true, if_false]
      by_cases hg : (optStrTruthy (execToolResolved ti) &&
          optMem (execToolResolved ti) EXEC_TOOL_REGISTRY_KEYS) = true
      · simp only [hg, if_true]
        cases hres : invoke ((execToolResolved ti).getD []) (execToolArgs recent st ti) with
        | ok res =>
          refine ⟨Or.inr ⟨_, rfl⟩, ⟨?_, ?_⟩⟩
          · intro _
            rcases (Bool.and_eq_true _ _).mp hg with ⟨hb1, hb2⟩
            obtain ⟨tn, htn, htne⟩ := optStrTruthy_some hb1
            refine ⟨ti, tn, rfl, htn, htne, ?_, ?_⟩
            · have hb2m : optMem (some tn) EXEC_TOOL_REGISTRY_KEYS = true := by
                rw [← htn]
                exact hb2
              exact of_decide_eq_true hb2m
            · rw [htn, Option.getD_some] at hres
              rw [hres]
              rfl
          · intro _
            exact ⟨_, rfl⟩
        | error e =>
          refine ⟨Or.inl rfl, ⟨?_, ?_⟩⟩
          · rintro ⟨e2, he⟩
            have he2 : st.memory = st.memory ++ [e2] := he
            have := congrArg List.length he2
            simp at this
          · rintro ⟨ti2, tn, hsome, hres2, htne, hmem2, hok⟩
            injection hsome with hti2
            subst hti2
            rw [hres2, Option.getD_some] at hres
            rw [hres] at hok
            exact Bool.noConfusion hok
      · rw [Bool.not_eq_true] at hg
        simp only [hg, Bool.false_eq_true, if_false]
        refine ⟨Or.inl trivial, ⟨?_, ?_⟩⟩
        · rintro ⟨e, he⟩
          have he2 : st.memory = st.memory ++ [e] := he
          have := congrArg List.length he2
          simp at this
        · rintro ⟨ti2, tn, hsome, hres2, htne, hmem2, hok⟩
          injection hsome with hti2
          subst hti2
          have hgt : (optStrTruthy (execToolResolved ti) &&
              optMem (execToolResolved ti) EXEC_TOOL_REGISTRY_KEYS) = true := by
            rw [hres2]
            simp [optStrTruthy, optMem, htne, hmem2]
          rw [hg] at hgt
          exact Bool.noConfusion hgt

end ExpenseMgr
